import Mathlib

/-!
A shallow embedding of the HarperDB Node.js client's request-execution core:
the query cache (content-addressed keys, TTL expiry, capacity eviction,
table-scoped invalidation), the retry interceptor, the request executor,
and the batched / parallel bulk-operation controllers, together with
theorems settling the specification claims.

JavaScript values occurring in request bodies and responses are modelled by
the JSON-like type `JVal` (no floating-point NaN/Infinity and no undefined
members: the bodies built by this client contain only strings, integers,
booleans, nulls, arrays and plain objects).  JavaScript object field lists
are kept in insertion order; integer-like property keys, which JS enumerates
numerically, do not occur as field names in this client's request bodies.
Wall-clock instants (`Date.now()`) are modelled as natural numbers passed in
explicitly.
-/

namespace HDB

/-- JSON-like value: the shape of request bodies and responses. -/
inductive JVal where
  | jnull
  | jbool (b : Bool)
  | jnum (n : Int)
  | jstr (s : String)
  | jarr (elems : List JVal)
  | jobj (fields : List (String × JVal))

mutual

/-- Structural equality test on `JVal` (written by hand: equality deriving
does not support the nested occurrences of `List`). -/
def jvalBEq : JVal → JVal → Bool
  | .jnull, .jnull => true
  | .jbool a, .jbool b => a == b
  | .jnum a, .jnum b => a == b
  | .jstr a, .jstr b => a == b
  | .jarr xs, .jarr ys => jvalListBEq xs ys
  | .jobj fs, .jobj gs => jvalFieldsBEq fs gs
  | _, _ => false

/-- Pointwise equality test on value lists. -/
def jvalListBEq : List JVal → List JVal → Bool
  | [], [] => true
  | x :: xs, y :: ys => jvalBEq x y && jvalListBEq xs ys
  | _, _ => false

/-- Pointwise equality test on field lists. -/
def jvalFieldsBEq : List (String × JVal) → List (String × JVal) → Bool
  | [], [] => true
  | (k, v) :: fs, (k', v') :: gs => k == k' && jvalBEq v v' && jvalFieldsBEq fs gs
  | _, _ => false

end

/-- Structural induction for `JVal` with membership hypotheses for the
nested lists (a definition, like any recursor). -/
def jval_induction (P : JVal → Prop)
    (hnull : P .jnull) (hbool : ∀ b, P (.jbool b)) (hnum : ∀ n, P (.jnum n))
    (hstr : ∀ s, P (.jstr s))
    (harr : ∀ xs, (∀ x, x ∈ xs → P x) → P (.jarr xs))
    (hobj : ∀ fs, (∀ k v, (k, v) ∈ fs → P v) → P (.jobj fs)) :
    ∀ v, P v
  | .jnull => hnull
  | .jbool b => hbool b
  | .jnum n => hnum n
  | .jstr s => hstr s
  | .jarr xs => harr xs (fun x hx =>
      jval_induction P hnull hbool hnum hstr harr hobj x)
  | .jobj fs => hobj fs (fun k v hp =>
      jval_induction P hnull hbool hnum hstr harr hobj v)
termination_by v => sizeOf v
decreasing_by
  · have h := List.sizeOf_lt_of_mem hx
    simp only [JVal.jarr.sizeOf_spec]
    omega
  · have h := List.sizeOf_lt_of_mem hp
    simp only [Prod.mk.sizeOf_spec] at h
    simp only [JVal.jobj.sizeOf_spec]
    omega

/-- Soundness of `jvalListBEq` from per-element soundness. -/
def jvalListBEq_iff (xs : List JVal)
    (ih : ∀ x, x ∈ xs → ∀ b, jvalBEq x b = true ↔ x = b) :
    ∀ ys, jvalListBEq xs ys = true ↔ xs = ys := by
  induction xs with
  | nil => intro ys; cases ys <;> simp [jvalListBEq]
  | cons x xs ihl =>
    intro ys
    cases ys with
    | nil => simp [jvalListBEq]
    | cons y ys =>
      have hx := ih x (by simp) y
      have hrest := ihl (fun z hz b => ih z (by simp [hz]) b) ys
      simp [jvalListBEq, hx, hrest]

/-- Soundness of `jvalFieldsBEq` from per-value soundness. -/
def jvalFieldsBEq_iff (fs : List (String × JVal))
    (ih : ∀ k v, (k, v) ∈ fs → ∀ b, jvalBEq v b = true ↔ v = b) :
    ∀ gs, jvalFieldsBEq fs gs = true ↔ fs = gs := by
  induction fs with
  | nil => intro gs; cases gs <;> simp [jvalFieldsBEq]
  | cons p fs ihl =>
    intro gs
    obtain ⟨k, v⟩ := p
    cases gs with
    | nil => simp [jvalFieldsBEq]
    | cons q gs =>
      obtain ⟨k', v'⟩ := q
      have hv := ih k v (by simp) v'
      have hrest := ihl (fun k2 v2 h2 b => ih k2 v2 (by simp [h2]) b) gs
      simp [jvalFieldsBEq, hv, hrest, and_assoc]

/-- `jvalBEq` decides equality. -/
def jvalBEq_iff : ∀ a b : JVal, jvalBEq a b = true ↔ a = b := by
  intro a
  induction a using jval_induction with
  | hnull => intro b; cases b <;> simp [jvalBEq]
  | hbool x => intro b; cases b <;> simp [jvalBEq]
  | hnum x => intro b; cases b <;> simp [jvalBEq]
  | hstr x => intro b; cases b <;> simp [jvalBEq]
  | harr xs ih =>
    intro b
    cases b <;> simp [jvalBEq]
    exact jvalListBEq_iff xs ih _
  | hobj fs ih =>
    intro b
    cases b <;> simp [jvalBEq]
    exact jvalFieldsBEq_iff fs ih _

instance : DecidableEq JVal := fun a b =>
  decidable_of_iff (jvalBEq a b = true) (jvalBEq_iff a b)

/-- First field with the given name (JS objects have unique keys, so this is
the field access `obj[k]`; `none` models `undefined`). -/
def lookupField : List (String × JVal) → String → Option JVal
  | [], _ => none
  | (k', v) :: rest, k => if k' = k then some v else lookupField rest k

/-- JS property access `v[k]` for the field names used by this client
(non-objects have none of those own properties). -/
def jsGetField : JVal → String → Option JVal
  | .jobj fs, k => lookupField fs k
  | _, _ => none

/-- JS truthiness of a value. -/
def jsTruthy : JVal → Bool
  | .jnull => false
  | .jbool b => b
  | .jnum n => n != 0
  | .jstr s => s ≠ ""
  | .jarr _ => true
  | .jobj _ => true

/-- JS truthiness of a possibly-undefined value. -/
def jsTruthyOpt : Option JVal → Bool
  | none => false
  | some v => jsTruthy v

/-- JS `a || b` on strings (first operand if non-empty). -/
def jsOrStr (a b : String) : String := if a = "" then b else a

/-- JS `a || b` where `a` is a possibly-undefined number (0 and undefined
fall through to `b`). -/
def jsOrNat : Option Nat → Nat → Nat
  | none, b => b
  | some a, b => if a = 0 then b else a

/-- Insert one field into a key-sorted field list, keeping it sorted
(stable: an inserted field goes before later fields with an equal key). -/
def insertByKey {α : Type} (p : String × α) : List (String × α) → List (String × α)
  | [] => [p]
  | q :: rest => if p.1 ≤ q.1 then p :: q :: rest else q :: insertByKey p rest

/-- Sort a field list by key, as `Object.keys(body).sort()` does (JS string
sort is lexicographic; for the distinct keys of a JS object the result does
not depend on the sorting algorithm). -/
def sortByKey {α : Type} : List (String × α) → List (String × α)
  | [] => []
  | p :: rest => insertByKey p (sortByKey rest)

mutual
/-- One field value of `normalizeBody`: a nested plain object (`typeof v ===
'object' && v !== null && !Array.isArray(v)`) is normalized recursively;
everything else — including arrays and their contents — is kept verbatim.
The source sorts the keys first and then normalizes each value; the two
steps commute since normalization does not touch keys. -/
def normEntry : JVal → JVal
  | .jobj fs => .jobj (sortByKey (normFields fs))
  | v => v

/-- Normalize each field value of an object, keeping keys. -/
def normFields : List (String × JVal) → List (String × JVal)
  | [] => []
  | (k, v) :: rest => (k, normEntry v) :: normFields rest
end

/-- The string-keyed fields `Object.keys` sees on an array: decimal index
keys in order. -/
def enumKeyed (xs : List JVal) : List (String × JVal) :=
  ((List.range xs.length).zip xs).map (fun p => (toString p.1, p.2))

/-- Source `normalizeBody` at the top level.  `typeof body !== 'object' ||
body === null` passes the body through; otherwise the keys are sorted and
plain-object members normalized recursively.  Note that a top-level ARRAY
also satisfies `typeof body === 'object'`, so its indices become string keys
and it is rebuilt as a plain object. -/
def normalizeBody : JVal → JVal
  | .jobj fs => .jobj (sortByKey (normFields fs))
  | .jarr xs => .jobj (sortByKey (normFields (enumKeyed xs)))
  | v => v

/-- The allow-list of cache-eligible operations. -/
def cacheableOperations : List String :=
  ["select", "get_by_hash", "get_by_hashes", "search_by_value", "sql",
   "describe_table", "list_tables", "list_schemas"]

/-- `operation.toLowerCase()`: operation names are ASCII, so lower-casing
is written out character by character. -/
def lowerAscii (s : String) : String :=
  ⟨s.data.map (fun c => if c.isUpper then Char.ofNat (c.toNat + 32) else c)⟩

/-- A cache key.  The source key is the string
`base64(JSON.stringify({operation, body: normalizeBody(body)}))`; base64 and
JSON serialization of `JVal` (which has no NaN/undefined members) are
injective and `invalidateTableCache` immediately decodes the key back, so a
generated key is modelled by its decoded content (`enc`), and a key whose
base64/JSON decoding fails — never produced by `generateCacheKey` but
tolerated by the invalidation scan — by its raw string (`raw`). -/
inductive CacheKey where
  | raw (s : String)
  | enc (operation : String) (body : JVal)
  deriving DecidableEq

/-- Source `generateCacheKey`: the empty key (modelled `none`) unless the
lowercased operation is allow-listed; otherwise the operation name (original
casing) plus the canonicalized body.  `JSON.stringify` cannot throw on the
acyclic values of `JVal`, so the `catch` branch is unreachable. -/
def generateCacheKey (operation : String) (body : JVal) : Option CacheKey :=
  if cacheableOperations.contains (lowerAscii operation) then
    some (.enc operation (normalizeBody body))
  else
    none

/-- The configuration record after constructor defaulting (`apiPath`,
credentials and the keep-alive socket options play no role in any claim and
are omitted). -/
structure HarperDBConfig where
  schema : String := "dev"
  timeout : Nat := 30000
  maxRetries : Nat := 3
  retryDelay : Nat := 1000
  poolSize : Nat := 10
  enableCache : Bool := false
  cacheTTL : Nat := 5000
  maxCacheSize : Nat := 1000
  deriving DecidableEq

/-- Per-call query options (the unused `retries` member is omitted). -/
structure QueryOptions where
  timeout : Option Nat := none
  useCache : Option Bool := none
  cacheTTL : Option Nat := none
  deriving DecidableEq

/-- Response metadata; a stored response has no `cached` member, modelled as
`cached = false`. -/
structure RespMetadata where
  executionTime : Nat
  cached : Bool := false
  deriving DecidableEq

/-- The response envelope `HarperDBResponse`. -/
structure HResponse where
  message : JVal
  data : JVal
  metadata : RespMetadata
  deriving DecidableEq

/-- A cache entry. -/
structure CacheEntry where
  data : HResponse
  timestamp : Nat
  ttl : Nat
  deriving DecidableEq

/-- The query cache: a JS `Map` modelled as an association list in
insertion order (`Map` iteration order).  Keys are unique in every state
reachable through the client's operations. -/
abbrev CacheMap := List (CacheKey × CacheEntry)

/-- `Map.get`. -/
def mapGet (m : CacheMap) (k : CacheKey) : Option CacheEntry :=
  match m with
  | [] => none
  | (k', e) :: rest => if k' = k then some e else mapGet rest k

/-- `Map.set`: replace in place if the key is present (keeping its
insertion position), else append. -/
def mapSet (m : CacheMap) (k : CacheKey) (e : CacheEntry) : CacheMap :=
  match m with
  | [] => [(k, e)]
  | (k', e') :: rest => if k' = k then (k, e) :: rest else (k', e') :: mapSet rest k e

/-- `Map.delete`: remove the (unique) occurrence of the key. -/
def mapDelete (m : CacheMap) (k : CacheKey) : CacheMap :=
  match m with
  | [] => []
  | (k', e') :: rest => if k' = k then rest else (k', e') :: mapDelete rest k

/-- Source `getCached`: absent on an empty key or disabled caching or a
missing entry; an entry with `now - timestamp > ttl` is evicted and treated
as absent; otherwise the stored response is returned.  Returns the response
(if any) and the possibly-shrunk cache. -/
def getCached (cfg : HarperDBConfig) (m : CacheMap) (cacheKey : Option CacheKey)
    (now : Nat) : Option HResponse × CacheMap :=
  match cacheKey with
  | none => (none, m)
  | some k =>
    if !cfg.enableCache then (none, m)
    else
      match mapGet m k with
      | none => (none, m)
      | some entry =>
        if now - entry.timestamp > entry.ttl then (none, mapDelete m k)
        else (some entry.data, m)

/-- Source `setCache`: no-op on an empty key or disabled caching; if
`size >= (maxCacheSize || 0)` the first key in iteration order (the
oldest-inserted entry, if any) is deleted; then the new entry is stored with
`ttl || cacheTTL || 0`. -/
def setCache (cfg : HarperDBConfig) (m : CacheMap) (cacheKey : Option CacheKey)
    (data : HResponse) (ttl : Option Nat) (now : Nat) : CacheMap :=
  match cacheKey with
  | none => m
  | some k =>
    if !cfg.enableCache then m
    else
      let m1 := if m.length ≥ cfg.maxCacheSize then
          match m with
          | [] => m
          | (k0, _) :: _ => mapDelete m k0
        else m
      let effectiveTTL := jsOrNat ttl cfg.cacheTTL
      mapSet m1 k { data := data, timestamp := now, ttl := effectiveTTL }

/-- The invalidation test of `invalidateTableCache` on one decoded key:
`body.table === table && (body.schema === schemaName || !body.schema)`,
with `decoded.body || {}` replacing a falsy body.  A key whose decoding
throws is skipped (`raw`). -/
def shouldInvalidate (k : CacheKey) (table schemaName : String) : Bool :=
  match k with
  | .raw _ => false
  | .enc _ body =>
    let b := if jsTruthy body then body else .jobj []
    (jsGetField b "table" == some (.jstr table)) &&
      ((jsGetField b "schema" == some (.jstr schemaName)) ||
        !(jsTruthyOpt (jsGetField b "schema")))

/-- Source `invalidateTableCache`: `schemaName = schema || config.schema ||
''`; every entry whose decoded body passes `shouldInvalidate` is deleted;
undecodable keys never cause failure. -/
def invalidateTableCache (cfg : HarperDBConfig) (m : CacheMap) (table : String)
    (schema : Option String) : CacheMap :=
  let schemaName := jsOrStr (jsOrStr (schema.getD "") cfg.schema) ""
  m.filter (fun p => !shouldInvalidate p.1 table schemaName)

deriving instance DecidableEq for Except

/-- Outcome of one `executeQuery` call: the thrown-or-returned response and
the cache afterwards. -/
structure ExecOutcome where
  result : Except String HResponse
  cache : CacheMap
  deriving DecidableEq

/-- Source `executeQuery`.  `transport` is the outcome of the (retried)
axios POST: `.ok raw` is the response payload, `.error msg` a failure whose
best available message (from `error.response.data.error` /
`...data.message` / `error.message` / `'Unknown error'`) is `msg`.  `now` is
`Date.now()` at entry and `elapsed` the measured wall time of the transport
call, so the entry stored on a miss carries timestamp `now + elapsed`.
Cache reads and writes cannot throw, so the `catch` wraps exactly the
transport failures. -/
def executeQuery (cfg : HarperDBConfig) (operation : String) (body : JVal)
    (options : QueryOptions) (m : CacheMap) (now : Nat)
    (transport : Except String JVal) (elapsed : Nat) : ExecOutcome :=
  let useCache := match options.useCache with
    | some b => b
    | none => cfg.enableCache
  let cacheKey := if useCache then generateCacheKey operation body else none
  match getCached cfg m cacheKey now with
  | (some cached, m1) =>
    { result := .ok { cached with
        metadata := { executionTime := cached.metadata.executionTime, cached := true } },
      cache := m1 }
  | (none, m1) =>
    match transport with
    | .error msg =>
      { result := .error ("HarperDB query failed: " ++ msg), cache := m1 }
    | .ok raw =>
      let responseData := match raw with
        | .jarr xs => .jarr xs
        | .jobj fs => (lookupField fs "data").getD (.jobj fs)
        | v => v
      let message := match jsGetField raw "message" with
        | some v => if jsTruthy v then v else .jstr "Success"
        | none => .jstr "Success"
      let result : HResponse :=
        { message := message, data := responseData,
          metadata := { executionTime := elapsed, cached := false } }
      let m2 := if cacheKey.isSome && useCache then
          setCache cfg m1 cacheKey result (some (jsOrNat options.cacheTTL cfg.cacheTTL))
            (now + elapsed)
        else m1
      { result := .ok result, cache := m2 }

/-- A transport failure as the response interceptor sees it:
`error.response?.status` and `error.code`. -/
structure TFail where
  status : Option Nat := none
  code : Option String := none
  deriving DecidableEq

/-- The interceptor's transience test:
`(error.response?.status ?? 0) >= 500 || error.code === 'ECONNABORTED'`. -/
def isTransient (f : TFail) : Bool :=
  (f.status.getD 0 ≥ 500) || (f.code == some "ECONNABORTED")

/-- The response interceptor's retry loop.  `respond n` is the transport
outcome of the request's attempt number `n` (the attempt carrying
`__retryCount = n`); `d` is the configured base delay; `c` the current
`__retryCount`; `fuel = maxRetries - c` encodes the remaining budget, so the
guard `__retryCount < maxRetries` is `fuel > 0`.  Returns the final outcome
together with the list of delays slept before each retry, in order
(`retryDelay * __retryCount` after the increment, i.e. `d * (c+1)` before
retry number `c+1`). -/
def retryGo (respond : Nat → Except TFail JVal) (d : Nat) :
    Nat → Nat → Except TFail JVal × List Nat
  | c, fuel =>
    match respond c with
    | .ok v => (.ok v, [])
    | .error f =>
      match fuel with
      | 0 => (.error f, [])
      | fuel' + 1 =>
        if isTransient f then
          let r := retryGo respond d (c + 1) fuel'
          (r.1, d * (c + 1) :: r.2)
        else (.error f, [])

/-- One request sent through the interceptor: attempt 0 with the full
retry budget. -/
def sendWithRetry (respond : Nat → Except TFail JVal) (cfg : HarperDBConfig) :
    Except TFail JVal × List Nat :=
  retryGo respond cfg.retryDelay 0 cfg.maxRetries

/-- `lodash.chunk`: consecutive groups of `n` (last may be shorter);
`chunk(xs, 0)` is empty. -/
def chunkList {α : Type} (xs : List α) (n : Nat) : List (List α) :=
  match xs with
  | [] => []
  | x :: rest =>
    if n = 0 then []
    else (x :: rest).take n :: chunkList (rest.drop (n - 1)) n
termination_by xs.length
decreasing_by
  simp only [List.length_cons, List.length_drop]
  omega

/-- One event of a bulk job, in execution order: a group's network send
(`executeQuery` call for the group's batch index), or a call to
`invalidateTableCache(table, schemaName)`. -/
inductive BulkEvent where
  | send (batchIndex : Nat)
  | invalidate (table : String) (schemaName : String)
  deriving DecidableEq

/-- `BulkOperationResult`: `errors` is `undefined` (`none`) when empty. -/
structure BulkResult where
  successful : Nat
  failed : Nat
  errors : Option (List (Nat × String))
  deriving DecidableEq

/-- Accumulator of a bulk job loop. -/
structure BulkAcc where
  successful : Nat
  failed : Nat
  errors : List (Nat × String)
  events : List BulkEvent
  deriving DecidableEq

/-- The sequential-batch loop shared by `insertMany`, `updateMany` and
`deleteMany` (they differ only in the operation name and payload shape of
the per-group request, which the claims do not inspect).  `send g` is the
outcome of the group `g`'s `executeQuery` call: `none` on success, `some
msg` when it threw an error with message `msg`.  On success of the LAST
batch index the table cache is invalidated; on failure every record of the
group is recorded with its original index `g * batchSize + j`. -/
def seqBulkGo {α : Type} (table schemaName : String) (send : Nat → Option String)
    (batchSize numBatches : Nat) :
    List (List α) → Nat → BulkAcc → BulkAcc
  | [], _, acc => acc
  | batch :: rest, g, acc =>
    let acc1 := { acc with events := acc.events ++ [BulkEvent.send g] }
    let acc2 :=
      match send g with
      | none =>
        { acc1 with
          successful := acc1.successful + batch.length,
          events := acc1.events ++
            (if g = numBatches - 1 then [BulkEvent.invalidate table schemaName] else []) }
      | some msg =>
        { acc1 with
          failed := acc1.failed + batch.length,
          errors := acc1.errors ++
            (List.range batch.length).map (fun j => (g * batchSize + j, msg)) }
    seqBulkGo table schemaName send batchSize numBatches rest (g + 1) acc2

/-- Package an accumulator as the returned `BulkOperationResult` (errors
only when non-empty) plus the event trace. -/
def finishBulk (acc : BulkAcc) : BulkResult × List BulkEvent :=
  ({ successful := acc.successful, failed := acc.failed,
     errors := if acc.errors.length > 0 then some acc.errors else none },
   acc.events)

/-- Source `insertMany`: `batchSize || 1000`, groups of `batchSize` sent
sequentially; `schema || this.getSchema()` is always the configured schema
(with `hashAttribute` set, `schema` is `undefined` and falls back the same
way). -/
def insertMany {α : Type} (cfg : HarperDBConfig) (table : String)
    (records : List α) (batchSize? : Option Nat) (send : Nat → Option String) :
    BulkResult × List BulkEvent :=
  let batchSize := jsOrNat batchSize? 1000
  let batches := chunkList records batchSize
  finishBulk (seqBulkGo table cfg.schema send batchSize batches.length batches 0
    ⟨0, 0, [], []⟩)

/-- Source `deleteMany`: the same sequential-batch loop over hash values. -/
def deleteMany (cfg : HarperDBConfig) (table : String) (hashValues : List String)
    (batchSize? : Option Nat) (send : Nat → Option String) :
    BulkResult × List BulkEvent :=
  let batchSize := jsOrNat batchSize? 1000
  let batches := chunkList hashValues batchSize
  finishBulk (seqBulkGo table cfg.schema send batchSize batches.length batches 0
    ⟨0, 0, [], []⟩)

/-- Source `updateMany`: the same sequential-batch loop. -/
def updateMany {α : Type} (cfg : HarperDBConfig) (table : String)
    (records : List α) (batchSize? : Option Nat) (send : Nat → Option String) :
    BulkResult × List BulkEvent :=
  insertMany cfg table records batchSize? send

/-- One wave of the parallel bulk loop: the group promises of
`batches.slice(i, i + concurrency)` settle within `Promise.all`; each
group's own accounting is independent of settlement order, so the wave is
folded in list order.  `waveStart` is `i`, the wave's first global batch
index. -/
def parWave {α : Type} (batchSize : Nat) (send : Nat → Option String)
    (waveStart : Nat) : List (List α) → Nat → BulkAcc → BulkAcc
  | [], _, acc => acc
  | batch :: rest, j, acc =>
    let g := waveStart + j
    let acc1 := { acc with events := acc.events ++ [BulkEvent.send g] }
    let acc2 :=
      match send g with
      | none => { acc1 with successful := acc1.successful + batch.length }
      | some msg =>
        { acc1 with
          failed := acc1.failed + batch.length,
          errors := acc1.errors ++
            (List.range batch.length).map (fun j2 => (g * batchSize + j2, msg)) }
    parWave batchSize send waveStart rest (j + 1) acc2

/-- The wave loop `for (i = 0; i < batches.length; i += concurrency)`:
the waves are exactly `chunkList batches concurrency`, and each full wave
advances `i` by its own length. -/
def parBulkGo {α : Type} (batchSize : Nat) (send : Nat → Option String) :
    List (List (List α)) → Nat → BulkAcc → BulkAcc
  | [], _, acc => acc
  | wave :: rest, i, acc =>
    parBulkGo batchSize send rest (i + wave.length)
      (parWave batchSize send i wave 0 acc)

/-- Source `insertManyParallel`: `batchSize || 1000`,
`concurrency || poolSize || 10`, waves of `concurrency` groups; the error
index base of group `batchIndex` within the wave starting at `i` is
`(i + batchIndex) * batchSize`.  No cache invalidation is performed
anywhere in this method. -/
def insertManyParallel {α : Type} (cfg : HarperDBConfig) (table : String)
    (records : List α) (batchSize? concurrency? : Option Nat)
    (send : Nat → Option String) : BulkResult × List BulkEvent :=
  let batchSize := jsOrNat batchSize? 1000
  let concurrency := jsOrNat concurrency? (jsOrNat (some cfg.poolSize) 10)
  let batches := chunkList records batchSize
  finishBulk (parBulkGo batchSize send (chunkList batches concurrency) 0
    ⟨0, 0, [], []⟩)

/-- Source `upsertMany`: the same wave loop as `insertManyParallel`,
followed by one unconditional `invalidateTableCache(table, schema ||
getSchema())` after all waves, whether or not any group succeeded. -/
def upsertMany {α : Type} (cfg : HarperDBConfig) (table : String)
    (records : List α) (batchSize? concurrency? : Option Nat)
    (send : Nat → Option String) : BulkResult × List BulkEvent :=
  let batchSize := jsOrNat batchSize? 1000
  let concurrency := jsOrNat concurrency? (jsOrNat (some cfg.poolSize) 10)
  let batches := chunkList records batchSize
  let acc := parBulkGo batchSize send (chunkList batches concurrency) 0
    ⟨0, 0, [], []⟩
  finishBulk { acc with events := acc.events ++ [BulkEvent.invalidate table cfg.schema] }

/-- `ParallelQueryResult` as far as the claims inspect it: per-item
placeholders (`none` for a fulfilled operation, `some msg` for a captured
failure) and the success/failure counts. -/
structure ParallelResult where
  successful : Nat
  failed : Nat
  results : List (Option String)
  deriving DecidableEq

/-- First failure among the operation outcomes, in list order (in JS,
`Promise.all` rejects with the first rejection in settlement order; the
operations are modelled as settling in list order). -/
def firstFailure {α : Type} : List (Except String α) → Option String
  | [] => none
  | .ok _ :: rest => firstFailure rest
  | .error e :: _ => some e

/-- Source `parallel`: each dispatched operation gets a `.catch` that
rethrows when `failFast` and otherwise returns the placeholder
`{data: null, error: message}`; `successful` counts results whose `error`
member is `undefined`, `failed` is the rest.  `outcomes` are the
per-operation results.  When `failFast` is set and some operation fails,
`Promise.all` rejects and the error propagates out of `parallel` with no
aggregated result. -/
def parallelRun {α : Type} (outcomes : List (Except String α)) (failFast : Bool) :
    Except String ParallelResult :=
  if failFast then
    match firstFailure outcomes with
    | some e => .error e
    | none =>
      (.ok { successful := outcomes.length, failed := 0,
             results := outcomes.map (fun _ => none) })
  else
    let results := outcomes.map (fun o =>
      match o with
      | .ok _ => none
      | .error e => some e)
    let successful := (results.filter (fun r => r == none)).length
    .ok { successful := successful, failed := results.length - successful,
          results := results }

/-- `SelectOptions` (the `where` condition is a single attribute/value
pair, as the source reads only the first key of the record). -/
structure SelectOpts where
  sqlText : Option String := none
  whereCond : Option (String × JVal) := none
  limit : Option Nat := none
  offset : Option Nat := none
  orderBy : Option String := none
  orderDesc : Bool := false
  deriving DecidableEq

/-- `QueryResult` as far as the claims inspect it (`executionTime` is wall
clock and not modelled). -/
structure QueryResultL where
  data : JVal
  recordsAffected : Nat
  deriving DecidableEq

/-- `Array.isArray(data) ? data.length : 0`. -/
def arrLen : JVal → Nat
  | .jarr xs => xs.length
  | _ => 0

/-- Truthiness of `options?.sql` / `options?.limit` etc. -/
def optNatTruthy : Option Nat → Bool
  | some n => n ≠ 0
  | none => false

/-- The SQL string built by the fallback branch of `select`. -/
def selectSqlString (cfg : HarperDBConfig) (table : String) (o : SelectOpts) :
    String :=
  let base := "SELECT * FROM " ++ cfg.schema ++ "." ++ table
  let s1 := match o.limit with
    | some l => if l ≠ 0 then base ++ " LIMIT " ++ toString l else base
    | none => base
  let s2 := match o.offset with
    | some off => if off ≠ 0 then s1 ++ " OFFSET " ++ toString off else s1
    | none => s1
  match o.orderBy with
  | some ob =>
    if ob ≠ "" then
      s2 ++ " ORDER BY " ++ ob ++ (if o.orderDesc then " DESC" else " ASC")
    else s2
  | none => s2

/-- The `orderBy` comparator of the `where` branch, restricted to the
number/string comparisons JS performs on this client's attribute values
(never inspected by any claim). -/
def jsLtB : JVal → JVal → Bool
  | .jnum a, .jnum b => a < b
  | .jstr a, .jstr b => a < b
  | _, _ => false

/-- Stable insertion modelling the `where` branch's `Array.sort` with the
record comparator on attribute `ob` (direction folded in). -/
def insertRec (ob : String) (desc : Bool) (x : JVal) : List JVal → List JVal
  | [] => [x]
  | y :: rest =>
    let xv := (jsGetField x ob).getD .jnull
    let yv := (jsGetField y ob).getD .jnull
    let before := if desc then jsLtB yv xv else jsLtB xv yv
    if before then x :: y :: rest else y :: insertRec ob desc x rest

/-- Sort of the `where` branch (never inspected by any claim). -/
def sortRecs (ob : String) (desc : Bool) : List JVal → List JVal
  | [] => []
  | x :: rest => insertRec ob desc x (sortRecs ob desc rest)

/-- Source `select`.  `exec` is the outcome of the single `executeQuery`
call the taken branch performs (`.ok` carries `response.data`).  The `sql`
branch and the `where` branch propagate an executor failure; the fallback
branch (no `where`, no `sql`) catches it and returns an empty result. -/
def select (cfg : HarperDBConfig) (table : String) (o : SelectOpts)
    (exec : Except String JVal) : Except String QueryResultL :=
  let sqlTruthy := match o.sqlText with
    | some s => s != ""
    | none => false
  if sqlTruthy then
    match exec with
    | .error e => .error e
    | .ok d =>
      .ok { data := if jsTruthy d then d else .jarr [],
            recordsAffected := arrLen d }
  else if o.whereCond.isSome then
    match exec with
    | .error e => .error e
    | .ok d =>
      let data0 := if jsTruthy d then d else .jarr []
      let data1 := match o.orderBy with
        | some ob =>
          (match data0 with
           | .jarr xs => .jarr (sortRecs ob o.orderDesc xs)
           | v => v)
        | none => data0
      .ok { data := data1, recordsAffected := arrLen data1 }
  else
    match exec with
    | .error _ => .ok { data := .jarr [], recordsAffected := 0 }
    | .ok d =>
      .ok { data := if jsTruthy d then d else .jarr [],
            recordsAffected := arrLen d }

/-- The `(table, schemaName)` arguments of the cache-invalidation calls in
a bulk event trace, in order. -/
def invalidateEvents : List BulkEvent → List (String × String)
  | [] => []
  | BulkEvent.send _ :: rest => invalidateEvents rest
  | BulkEvent.invalidate t s :: rest => (t, s) :: invalidateEvents rest

/-- A sequence of `setCache` calls (key, payload, ttl, store time) applied
in order to a cache state. -/
def applyPuts (cfg : HarperDBConfig)
    (puts : List (Option CacheKey × HResponse × Option Nat × Nat))
    (m : CacheMap) : CacheMap :=
  match puts with
  | [] => m
  | p :: rest => applyPuts cfg rest (setCache cfg m p.1 p.2.1 p.2.2.1 p.2.2.2)

/-- Total size of the groups (numbered from `g`) whose send succeeds. -/
def expSucc {α : Type} (send : Nat → Option String) :
    List (List α) → Nat → Nat
  | [], _ => 0
  | b :: rest, g =>
    (if send g = none then b.length else 0) + expSucc send rest (g + 1)

/-- Total size of the groups (numbered from `g`) whose send fails. -/
def expFail {α : Type} (send : Nat → Option String) :
    List (List α) → Nat → Nat
  | [], _ => 0
  | b :: rest, g =>
    (if send g = none then 0 else b.length) + expFail send rest (g + 1)

/-- Expected error entries: for each failed group `g`, the original indices
`g * batchSize + j` of its records, each with the group's message. -/
def expErrs {α : Type} (send : Nat → Option String) (batchSize : Nat) :
    List (List α) → Nat → List (Nat × String)
  | [], _ => []
  | b :: rest, g =>
    (match send g with
     | none => []
     | some msg => (List.range b.length).map (fun j => (g * batchSize + j, msg))) ++
      expErrs send batchSize rest (g + 1)

/-- Expected event trace of the sequential bulk loop: each group's send, and
an invalidation right after the send of the last group when it succeeds. -/
def expEvtsSeq {α : Type} (table schemaName : String)
    (send : Nat → Option String) (numBatches : Nat) :
    List (List α) → Nat → List BulkEvent
  | [], _ => []
  | _ :: rest, g =>
    BulkEvent.send g ::
      ((if g = numBatches - 1 ∧ send g = none then
          [BulkEvent.invalidate table schemaName] else []) ++
        expEvtsSeq table schemaName send numBatches rest (g + 1))

/-- Pairwise-distinct keys (JS objects cannot carry duplicate keys). -/
def keysNodup {α : Type} : List (String × α) → Bool
  | [] => true
  | (k, _) :: rest => !(rest.any (fun q => q.1 == k)) && keysNodup rest

mutual

/-- Well-formedness of a body as built in JS: every plain object reached
without crossing an array has pairwise-distinct keys.  Objects inside
arrays are copied verbatim by `normalizeBody`, so they need no condition. -/
def wfSpine : JVal → Bool
  | .jobj fs => keysNodup fs && wfFields fs
  | _ => true

/-- Well-formedness of an object's field values. -/
def wfFields : List (String × JVal) → Bool
  | [] => true
  | (_, v) :: rest => wfSpine v && wfFields rest

end

mutual

/-- "Differs only in the order of mapping keys outside arrays": two plain
objects with equally many pairwise-distinct keys and, key by key, related
values; anything else must be literally equal (in particular arrays and
their contents compare verbatim, mirroring what `normalizeBody` leaves
untouched). -/
def keyPermB : JVal → JVal → Bool
  | .jobj fs, .jobj gs =>
    (fs.length == gs.length) && keysNodup fs && keysNodup gs && keyPermFields fs gs
  | a, b => a == b

/-- Every field of `fs` finds its key in `gs`, with a related value. -/
def keyPermFields : List (String × JVal) → List (String × JVal) → Bool
  | [], _ => true
  | (k, v) :: rest, gs =>
    (match lookupField gs k with
     | some w => keyPermB v w
     | none => false) && keyPermFields rest gs

end

/-- A sample stored response. -/
def respA : HResponse :=
  { message := .jstr "ok", data := .jarr [.jobj [("id", .jnum 1)]],
    metadata := { executionTime := 7, cached := false } }

/-- A sample cache-eligible request body naming table `users`, schema
`dev`. -/
def bodyA : JVal := .jobj [("schema", .jstr "dev"), ("table", .jstr "users")]

/-- The cache key `generateCacheKey "select" bodyA` produces. -/
def keyA : CacheKey := .enc "select" (normalizeBody bodyA)

/-- A sample cache entry stored at time 0 with ttl 5. -/
def entryA : CacheEntry := { data := respA, timestamp := 0, ttl := 5 }

/-- A configuration with caching enabled (defaults otherwise). -/
def cfgOn : HarperDBConfig := { enableCache := true }

/-- The all-defaults configuration (caching disabled). -/
def cfgOff : HarperDBConfig := {}

/-- A configuration with caching enabled and an explicit capacity of 0
(`{...defaults, ...config}` keeps an explicitly passed 0). -/
def cfgZeroCap : HarperDBConfig := { enableCache := true, maxCacheSize := 0 }

/-- C3 counterexample: an entry stored at T = 0 with ttl = 5 is still
returned by a lookup at exactly T + ttl = 5 (and not evicted), because the
expiry test `now - timestamp > ttl` is strict; the claim asserts a lookup
at or after T + ttl treats the entry as absent. -/
theorem claim_C3_counterexample :
    getCached cfgOn [(keyA, entryA)] (some keyA) 5 =
      (some respA, [(keyA, entryA)]) := by
  simp [getCached, cfgOn, mapGet, entryA, respA]

/-- C3 (amended): a lookup returns a stored entry for any `now` up to AND
INCLUDING `timestamp + ttl`, and treats it as absent — evicting it on that
read — strictly after `timestamp + ttl`; a lookup with an empty key, with
caching disabled, or with no entry under the key returns absent and leaves
the cache unchanged. -/
theorem claim_C3_ttl_boundary (cfg : HarperDBConfig) (m : CacheMap) (now : Nat) :
    (getCached cfg m none now = (none, m)) ∧
    (∀ k, cfg.enableCache = false → getCached cfg m (some k) now = (none, m)) ∧
    (∀ k, mapGet m k = none → getCached cfg m (some k) now = (none, m)) ∧
    (∀ k e, cfg.enableCache = true → mapGet m k = some e →
      (now ≤ e.timestamp + e.ttl →
        getCached cfg m (some k) now = (some e.data, m)) ∧
      (e.timestamp + e.ttl < now →
        getCached cfg m (some k) now = (none, mapDelete m k))) := by
  refine ⟨rfl, ?_, ?_, ?_⟩
  · intro k h
    simp [getCached, h]
  · intro k h
    cases hE : cfg.enableCache <;> simp [getCached, hE, h]
  · intro k e hE hg
    constructor
    · intro hle
      simp only [getCached, hE, Bool.not_true, Bool.false_eq_true, if_false, hg]
      rw [if_neg]
      omega
    · intro hlt
      simp only [getCached, hE, Bool.not_true, Bool.false_eq_true, if_false, hg]
      rw [if_pos]
      omega

/-- C3 witness: the amended theorem applied at `cfgOn`, the sample entry
(stored at 0, ttl 5) and lookup time 6 gives absence with eviction. -/
theorem claim_C3_ttl_boundary_witness :
    getCached cfgOn [(keyA, entryA)] (some keyA) 6 =
      (none, mapDelete [(keyA, entryA)] keyA) :=
  ((claim_C3_ttl_boundary cfgOn [(keyA, entryA)] 6).2.2.2 keyA entryA
    (by simp [cfgOn]) (by simp [mapGet])).2 (by simp [entryA])

/-- Bounded growth of `mapSet`: at most one new entry. -/
theorem mapSet_length_le (m : CacheMap) (k : CacheKey) (e : CacheEntry) :
    (mapSet m k e).length ≤ m.length + 1 := by
  induction m with
  | nil => simp [mapSet]
  | cons p rest ih =>
    obtain ⟨k', e'⟩ := p
    by_cases h : k' = k <;> simp [mapSet, h] <;> omega

/-- One `setCache` call preserves the capacity bound (for a positive
configured capacity). -/
theorem setCache_length_le (cfg : HarperDBConfig) (hcap : 1 ≤ cfg.maxCacheSize)
    (m : CacheMap) (k : Option CacheKey) (data : HResponse) (ttl : Option Nat)
    (now : Nat) (hle : m.length ≤ cfg.maxCacheSize) :
    (setCache cfg m k data ttl now).length ≤ cfg.maxCacheSize := by
  match k with
  | none => simpa [setCache] using hle
  | some k =>
    cases hE : cfg.enableCache with
    | false => simpa [setCache, hE] using hle
    | true =>
      simp only [setCache, hE, Bool.not_true, Bool.false_eq_true, if_false]
      by_cases hfull : m.length ≥ cfg.maxCacheSize
      · cases m with
        | nil => simp only [List.length_nil] at hfull; omega
        | cons p rest =>
          obtain ⟨k0, e0⟩ := p
          rw [if_pos hfull]
          have hd : mapDelete ((k0, e0) :: rest) k0 = rest := by simp [mapDelete]
          simp only [hd]
          have h := mapSet_length_le rest k
            { data := data, timestamp := now, ttl := jsOrNat ttl cfg.cacheTTL }
          simp only [List.length_cons] at hle
          omega
      · rw [if_neg hfull]
        have h := mapSet_length_le m k
          { data := data, timestamp := now, ttl := jsOrNat ttl cfg.cacheTTL }
        omega

/-- Any sequence of `setCache` calls preserves the capacity bound. -/
theorem applyPuts_length (cfg : HarperDBConfig) (hcap : 1 ≤ cfg.maxCacheSize) :
    ∀ (puts : List (Option CacheKey × HResponse × Option Nat × Nat))
      (m : CacheMap), m.length ≤ cfg.maxCacheSize →
      (applyPuts cfg puts m).length ≤ cfg.maxCacheSize := by
  intro puts
  induction puts with
  | nil => intro m h; simpa [applyPuts] using h
  | cons p rest ih =>
    intro m h
    simp only [applyPuts]
    exact ih _ (setCache_length_le cfg hcap m p.1 p.2.1 p.2.2.1 p.2.2.2 h)

/-- C7 counterexample: with an explicitly configured capacity of 0 — which
survives the constructor's `{...defaults, ...config}` spread — a put into
the empty (at-capacity) store evicts nothing and inserts, so the live entry
count exceeds the configured maximum. -/
theorem claim_C7_counterexample :
    cfgZeroCap.maxCacheSize = 0 ∧
    (setCache cfgZeroCap [] (some keyA) respA none 0).length = 1 := by decide

/-- C7 (amended): for every configuration whose maximum capacity is
POSITIVE, the live entry count never exceeds the capacity (any sequence of
puts from the empty store, and any single put from a within-bound store),
and a put into a store exactly at capacity evicts exactly the
oldest-inserted entry — the head of the insertion-ordered store — and no
other, before inserting the new entry; below capacity nothing is evicted. -/
theorem claim_C7_capacity (cfg : HarperDBConfig) (hcap : 1 ≤ cfg.maxCacheSize) :
    (∀ (puts : List (Option CacheKey × HResponse × Option Nat × Nat)),
      (applyPuts cfg puts []).length ≤ cfg.maxCacheSize) ∧
    (∀ m (k : Option CacheKey) data ttl now, m.length ≤ cfg.maxCacheSize →
      (setCache cfg m k data ttl now).length ≤ cfg.maxCacheSize) ∧
    (∀ m (k : CacheKey) data ttl now, cfg.enableCache = true →
      m.length = cfg.maxCacheSize →
      setCache cfg m (some k) data ttl now =
        mapSet m.tail k
          { data := data, timestamp := now, ttl := jsOrNat ttl cfg.cacheTTL }) ∧
    (∀ m (k : CacheKey) data ttl now, cfg.enableCache = true →
      m.length < cfg.maxCacheSize →
      setCache cfg m (some k) data ttl now =
        mapSet m k
          { data := data, timestamp := now, ttl := jsOrNat ttl cfg.cacheTTL }) := by
  refine ⟨fun puts => applyPuts_length cfg hcap puts [] (by simp),
    fun m k data ttl now h => setCache_length_le cfg hcap m k data ttl now h,
    ?_, ?_⟩
  · intro m k data ttl now hE hm
    cases m with
    | nil => simp only [List.length_nil] at hm; omega
    | cons p rest =>
      obtain ⟨k0, e0⟩ := p
      simp only [setCache, hE, Bool.not_true, Bool.false_eq_true, if_false]
      rw [if_pos (by omega)]
      simp [mapDelete]
  · intro m k data ttl now hE hlt
    simp only [setCache, hE, Bool.not_true, Bool.false_eq_true, if_false]
    rw [if_neg (by omega)]

/-- C7 witness: the amended theorem applied at the default configuration
(capacity 1000): a put into a two-entry store evicts nothing. -/
theorem claim_C7_capacity_witness :
    setCache cfgOn [(keyA, entryA)] (some (CacheKey.raw "x")) respA none 9 =
      mapSet [(keyA, entryA)] (CacheKey.raw "x")
        { data := respA, timestamp := 9, ttl := jsOrNat none cfgOn.cacheTTL } :=
  (claim_C7_capacity cfgOn (by decide)).2.2.2 [(keyA, entryA)]
    (CacheKey.raw "x") respA none 9 (by decide) (by decide)

/-- C10: a `select` with neither a `where` condition nor a raw `sql` option
catches any executor failure and returns an empty result with
`recordsAffected = 0` instead of throwing. -/
theorem claim_C10_select_swallows (cfg : HarperDBConfig) (table : String)
    (o : SelectOpts) (e : String) (hsql : o.sqlText = none)
    (hwhere : o.whereCond = none) :
    select cfg table o (.error e) = .ok { data := .jarr [], recordsAffected := 0 } := by
  simp [select, hsql, hwhere]

/-- C10 witness: the theorem applied at the default configuration and
default options with a failing executor. -/
theorem claim_C10_select_swallows_witness :
    select cfgOff "users" {} (.error "HarperDB query failed: boom") =
      .ok { data := .jarr [], recordsAffected := 0 } :=
  claim_C10_select_swallows cfgOff "users" {} "HarperDB query failed: boom" rfl rfl

/-- Fulfilled placeholders are exactly the fulfilled outcomes. -/
theorem placeholder_count {α : Type} (outcomes : List (Except String α)) :
    ((outcomes.map (fun o => match o with
        | Except.ok _ => (none : Option String)
        | Except.error e => some e)).filter (fun r => r == none)).length =
      (outcomes.filter (fun o => o.isOk)).length := by
  induction outcomes with
  | nil => rfl
  | cons o rest ih =>
    cases o with
    | ok a =>
      rw [List.map_cons, List.filter_cons_of_pos (by rfl),
        List.filter_cons_of_pos (by rfl)]
      simp [ih]
    | error e =>
      rw [List.map_cons, List.filter_cons_of_neg (by simp),
        List.filter_cons_of_neg (by simp [Except.isOk, Except.toBool])]
      exact ih

/-- Fulfilled and failed outcomes partition the list. -/
theorem ok_err_partition {α : Type} (outcomes : List (Except String α)) :
    (outcomes.filter (fun o => o.isOk)).length +
      (outcomes.filter (fun o => !o.isOk)).length = outcomes.length := by
  induction outcomes with
  | nil => rfl
  | cons o rest ih =>
    cases o with
    | ok a =>
      rw [List.filter_cons_of_pos (by rfl),
        List.filter_cons_of_neg (by simp [Except.isOk, Except.toBool])]
      simp only [List.length_cons]
      omega
    | error e =>
      rw [List.filter_cons_of_neg (by simp [Except.isOk, Except.toBool]),
        List.filter_cons_of_pos (by rfl)]
      simp only [List.length_cons]
      omega

/-- C9: with `failFast = false` (the default) `parallel` returns an
aggregated result: every failure is captured inline as a placeholder
carrying the error message, `successful`/`failed` count fulfilled and
failed items, and nothing is thrown; with `failFast = true` the first
operation failure propagates as a thrown error with no aggregated result,
and only when every operation fulfils is a result produced. -/
theorem claim_C9_parallel {α : Type} (outcomes : List (Except String α)) :
    (∃ r, parallelRun outcomes false = .ok r ∧
      r.results = outcomes.map (fun o => match o with
        | Except.ok _ => none
        | Except.error e => some e) ∧
      r.successful = (outcomes.filter (fun o => o.isOk)).length ∧
      r.failed = (outcomes.filter (fun o => !o.isOk)).length ∧
      r.successful + r.failed = outcomes.length) ∧
    (∀ e, firstFailure outcomes = some e → parallelRun outcomes true = .error e) ∧
    (firstFailure outcomes = none →
      parallelRun outcomes true =
        .ok { successful := outcomes.length, failed := 0,
              results := outcomes.map (fun _ => none) }) := by
  refine ⟨?_, ?_, ?_⟩
  · have h1 := placeholder_count outcomes
    have h2 := ok_err_partition outcomes
    refine ⟨⟨(outcomes.filter (fun o => o.isOk)).length,
             (outcomes.filter (fun o => !o.isOk)).length,
             outcomes.map (fun o => match o with
               | Except.ok _ => none
               | Except.error e => some e)⟩, ?_, rfl, rfl, rfl, h2⟩
    simp only [parallelRun, Bool.false_eq_true, if_false, Except.ok.injEq,
      ParallelResult.mk.injEq, List.length_map]
    refine ⟨h1, ?_, trivial⟩
    omega
  · intro e h
    simp [parallelRun, h]
  · intro h
    simp [parallelRun, h]

/-- C9 witness: three operations with the second failing; `failFast = true`
throws that failure. -/
theorem claim_C9_parallel_witness :
    parallelRun [Except.ok (), Except.error "boom", Except.ok ()] true =
      .error "boom" :=
  (claim_C9_parallel [Except.ok (), Except.error "boom", Except.ok ()]).2.1
    "boom" rfl

/-- The falsy-body fallback `decoded.body || {}` never changes a field
lookup: falsy bodies have no fields, just like the empty object. -/
theorem jsGetField_falsyBody (body : JVal) (f : String) :
    jsGetField (if jsTruthy body then body else .jobj []) f = jsGetField body f := by
  cases body with
  | jbool b => cases b <;> simp [jsTruthy, jsGetField, lookupField]
  | jnum n =>
    by_cases h : n = 0 <;> simp [jsTruthy, jsGetField, lookupField, h]
  | jstr s =>
    by_cases h : s = "" <;> simp [jsTruthy, jsGetField, lookupField, h]
  | _ => simp [jsTruthy, jsGetField, lookupField]

/-- A key survives the invalidation scan iff it is not a decoded match:
undecodable keys always survive, and an encoded key survives unless its
body names the table with a matching or missing/falsy schema. -/
theorem shouldInvalidate_false_iff (k : CacheKey) (table s : String) :
    (!shouldInvalidate k table s) = true ↔
      ∀ op body, k = CacheKey.enc op body →
        ¬(jsGetField body "table" = some (.jstr table) ∧
          (jsGetField body "schema" = some (.jstr s) ∨
            jsTruthyOpt (jsGetField body "schema") = false)) := by
  cases k with
  | raw str => simp [shouldInvalidate]
  | enc op0 body0 =>
    simp only [shouldInvalidate, jsGetField_falsyBody, Bool.not_eq_true',
      Bool.and_eq_false_iff, Bool.or_eq_false_iff, beq_eq_false_iff_ne,
      Bool.not_eq_false, CacheKey.enc.injEq]
    constructor
    · rintro h op body ⟨rfl, rfl⟩ ⟨htable, hschema⟩
      rcases h with h | ⟨h1, h2⟩
      · exact h htable
      · rcases hschema with h3 | h3
        · exact h1 h3
        · simp [h3] at h2
    · intro h
      by_cases htable : jsGetField body0 "table" = some (.jstr table)
      · right
        have h2 := h op0 body0 ⟨rfl, rfl⟩
        constructor
        · intro heq
          exact h2 ⟨htable, Or.inl heq⟩
        · cases hT : jsTruthyOpt (jsGetField body0 "schema") with
          | false => exact absurd ⟨htable, Or.inr hT⟩ h2
          | true => rfl
      · left
        exact htable

/-- C6: `invalidateTableCache(table, schema)` removes exactly the live
entries whose decoded body names `table` with a schema equal to the
effective schema name (`schema || config.schema || ''`) or with no/falsy
schema member; entries for other tables or other schemas survive, and
undecodable keys are skipped (the scan is total and never raises). -/
theorem claim_C6_invalidate (cfg : HarperDBConfig) (m : CacheMap) (table : String)
    (schema : Option String) :
    ∀ k e, (k, e) ∈ invalidateTableCache cfg m table schema ↔
      ((k, e) ∈ m ∧
        ∀ op body, k = CacheKey.enc op body →
          ¬(jsGetField body "table" = some (.jstr table) ∧
            (jsGetField body "schema" =
                some (.jstr (jsOrStr (jsOrStr (schema.getD "") cfg.schema) "")) ∨
              jsTruthyOpt (jsGetField body "schema") = false))) := by
  intro k e
  rw [invalidateTableCache, List.mem_filter]
  exact and_congr_right (fun _ => shouldInvalidate_false_iff k table _)

/-- C6 witness: invalidating `(orders, dev)` keeps an entry whose body
names table `orders` under schema `prod`. -/
theorem claim_C6_invalidate_witness :
    (CacheKey.enc "select" (.jobj [("schema", .jstr "prod"), ("table", .jstr "orders")]),
        entryA) ∈
      invalidateTableCache cfgOff
        [(CacheKey.enc "select" (.jobj [("schema", .jstr "dev"), ("table", .jstr "orders")]),
            entryA),
         (CacheKey.enc "select" (.jobj [("schema", .jstr "prod"), ("table", .jstr "orders")]),
            entryA),
         (CacheKey.raw "not base64 json", entryA)]
        "orders" (some "dev") := by
  refine (claim_C6_invalidate cfgOff _ "orders" (some "dev") _ entryA).mpr
    ⟨by simp, ?_⟩
  rintro op body ⟨rfl, rfl⟩ ⟨htable, hschema⟩
  rcases hschema with h | h
  · simp [jsGetField, lookupField, jsOrStr, cfgOff] at h
  · simp [jsGetField, lookupField, jsTruthyOpt, jsTruthy] at h

/-- With caching disabled in the configuration, a cache lookup never
returns anything and never changes the cache, whatever the key. -/
theorem getCached_disabled (cfg : HarperDBConfig) (hE : cfg.enableCache = false)
    (m : CacheMap) (ck : Option CacheKey) (now : Nat) :
    getCached cfg m ck now = (none, m) := by
  cases ck <;> simp [getCached, hE]

/-- With caching disabled in the configuration, a cache store is a no-op,
whatever the key. -/
theorem setCache_disabled (cfg : HarperDBConfig) (hE : cfg.enableCache = false)
    (m : CacheMap) (ck : Option CacheKey) (data : HResponse) (ttl : Option Nat)
    (now : Nat) :
    setCache cfg m ck data ttl now = m := by
  cases ck <;> simp [setCache, hE]

/-- `"select"` is on the allow-list, so a cache key is generated. -/
theorem generateCacheKey_bodyA : generateCacheKey "select" bodyA = some keyA := by
  unfold generateCacheKey
  rw [if_pos (by decide)]
  rfl

/-- C1 counterexample: with the configuration's cache flag off, a
cache-eligible `select` with `options.useCache = true` and a fresh matching
entry in the cache is NOT served from the cache (the response is rebuilt
from the network with `metadata.cached = false`) and is NOT stored
(the cache is unchanged): `getCached`/`setCache` re-check
`config.enableCache`, so the per-call option cannot override a disabled
configuration. -/
theorem claim_C1_counterexample :
    executeQuery cfgOff "select" bodyA { useCache := some true }
        [(keyA, { data := respA, timestamp := 0, ttl := 100 })] 1 (.ok (.jarr [])) 2 =
      { result := .ok { message := .jstr "Success", data := .jarr [],
                        metadata := { executionTime := 2, cached := false } },
        cache := [(keyA, { data := respA, timestamp := 0, ttl := 100 })] } ∧
    generateCacheKey "select" bodyA = some keyA ∧
    cfgOff.enableCache = false := by
  refine ⟨?_, generateCacheKey_bodyA, rfl⟩
  simp only [executeQuery, generateCacheKey_bodyA]
  simp [getCached, setCache, cfgOff, jsGetField]

/-- C1 (amended): `options.useCache = false` bypasses the cache even when
the configuration enables it (no read, no write, cache unchanged); but
`options.useCache = true` does not override a disabled configuration —
`getCached` and `setCache` re-check `config.enableCache`, so with
`enableCache = false` no call reads or writes the cache whatever the
option says; only when `config.enableCache = true` and the effective
per-call flag is true (explicitly, or by defaulting to the config flag) is
a fresh matching entry served, with `metadata.cached = true` and the stored
execution time. -/
theorem claim_C1_useCache (cfg : HarperDBConfig) (operation : String)
    (body : JVal) (opts : QueryOptions) (m : CacheMap) (now : Nat)
    (transport : Except String JVal) (elapsed : Nat) :
    ((opts.useCache = some false →
      (executeQuery cfg operation body opts m now transport elapsed).cache = m ∧
      ∀ r, (executeQuery cfg operation body opts m now transport elapsed).result = .ok r →
        r.metadata.cached = false)) ∧
    ((cfg.enableCache = false →
      (executeQuery cfg operation body opts m now transport elapsed).cache = m ∧
      ∀ r, (executeQuery cfg operation body opts m now transport elapsed).result = .ok r →
        r.metadata.cached = false)) ∧
    (∀ k entry, cfg.enableCache = true →
      (opts.useCache = some true ∨ opts.useCache = none) →
      generateCacheKey operation body = some k →
      mapGet m k = some entry →
      now ≤ entry.timestamp + entry.ttl →
      executeQuery cfg operation body opts m now transport elapsed =
        { result := .ok { entry.data with
                          metadata := { executionTime :=
                                          entry.data.metadata.executionTime,
                                        cached := true } },
          cache := m }) := by
  refine ⟨?_, ?_, ?_⟩
  · intro hU
    simp only [executeQuery, hU]
    cases transport <;> simp [getCached]
  · intro hE
    simp only [executeQuery,
      getCached_disabled cfg hE m _ now]
    cases transport with
    | error e => simp
    | ok raw =>
      simp only []
      rw [setCache_disabled cfg hE]
      constructor
      · exact ite_self m
      · intro r hr
        have h2 := (Except.ok.injEq _ _).mp hr.symm
        rw [show r.metadata = { executionTime := elapsed, cached := false } from
          congrArg HResponse.metadata h2]
  · intro k entry hE hOpt hGen hGet hFresh
    have hUse : (match opts.useCache with
        | some b => b
        | none => cfg.enableCache) = true := by
      rcases hOpt with h | h <;> simp [h, hE]
    simp only [executeQuery, hUse, if_true, hGen]
    simp only [getCached, hE, Bool.not_true, Bool.false_eq_true, if_false, hGet]
    rw [if_neg (by omega)]

/-- C1 witness: the amended theorem's serving clause at the sample
configuration with caching enabled, default options and a fresh entry: the
stored response is returned with `cached = true` and the cache is left
unchanged. -/
theorem claim_C1_useCache_witness :
    executeQuery cfgOn "select" bodyA {} [(keyA, entryA)] 3 (.ok (.jarr [])) 1 =
      { result := .ok { entryA.data with
                        metadata := { executionTime :=
                                        entryA.data.metadata.executionTime,
                                      cached := true } },
        cache := [(keyA, entryA)] } :=
  (claim_C1_useCache cfgOn "select" bodyA {} [(keyA, entryA)] 3
      (.ok (.jarr [])) 1).2.2 keyA entryA rfl (Or.inr rfl)
    generateCacheKey_bodyA (by simp [mapGet]) (by simp [entryA])

/-- The retry loop on a run of transient failures followed by a success
within the budget: the success is returned after one delay
`d * (retryCount)` per retry, in order. -/
theorem retryGo_ok (respond : Nat → Except TFail JVal) (d : Nat) :
    ∀ (R c fuel : Nat) (v : JVal) (f : Nat → TFail), R ≤ fuel →
      (∀ i, i < R → respond (c + i) = .error (f i) ∧ isTransient (f i) = true) →
      respond (c + R) = .ok v →
      retryGo respond d c fuel =
        (.ok v, (List.range R).map (fun i => d * (c + i + 1))) := by
  intro R
  induction R with
  | zero =>
    intro c fuel v f _ _ hok
    rw [Nat.add_zero] at hok
    rw [retryGo, hok]
    simp
  | succ R ih =>
    intro c fuel v f hle hfail hok
    obtain ⟨f0err, f0tr⟩ := hfail 0 (Nat.succ_pos R)
    rw [Nat.add_zero] at f0err
    cases fuel with
    | zero => omega
    | succ fuel' =>
      rw [retryGo, f0err]
      simp only [f0tr, if_true]
      have ih' := ih (c + 1) fuel' v (fun i => f (i + 1)) (by omega)
        (fun i hi => by
          have h := hfail (i + 1) (by omega)
          rwa [show c + (i + 1) = c + 1 + i by omega] at h)
        (by rwa [show c + (R + 1) = c + 1 + R by omega] at hok)
      rw [ih']
      simp only [Prod.mk.injEq, true_and]
      rw [List.range_succ_eq_map]
      simp only [List.map_cons, List.map_map]
      refine congrArg₂ List.cons (by congr 1 <;> omega) ?_
      apply List.map_congr_left
      intro i _
      simp only [Function.comp_apply]
      congr 1
      omega

/-- The retry loop when every attempt in the budget fails transiently and
the final attempt fails too: the final attempt's error is returned after
all `fuel` delays. -/
theorem retryGo_exhaust (respond : Nat → Except TFail JVal) (d : Nat) :
    ∀ (fuel c : Nat) (f : Nat → TFail),
      (∀ i, i ≤ fuel → respond (c + i) = .error (f i)) →
      (∀ i, i < fuel → isTransient (f i) = true) →
      retryGo respond d c fuel =
        (.error (f fuel), (List.range fuel).map (fun i => d * (c + i + 1))) := by
  intro fuel
  induction fuel with
  | zero =>
    intro c f herr _
    have h0 := herr 0 (Nat.le_refl 0)
    rw [Nat.add_zero] at h0
    rw [retryGo, h0]
    simp
  | succ fuel' ih =>
    intro c f herr htr
    have h0 := herr 0 (by omega)
    rw [Nat.add_zero] at h0
    rw [retryGo, h0]
    simp only [htr 0 (by omega), if_true]
    have ih' := ih (c + 1) (fun i => f (i + 1))
      (fun i hi => by
        have h := herr (i + 1) (by omega)
        rwa [show c + (i + 1) = c + 1 + i by omega] at h)
      (fun i hi => htr (i + 1) (by omega))
    rw [ih']
    simp only [Prod.mk.injEq, true_and]
    rw [List.range_succ_eq_map]
    simp only [List.map_cons, List.map_map]
    refine congrArg₂ List.cons (by congr 1 <;> omega) ?_
    apply List.map_congr_left
    intro i _
    simp only [Function.comp_apply]
    congr 1
    omega

/-- A non-transient failure stops the loop at once, with no delay, whatever
budget remains. -/
theorem retryGo_stop (respond : Nat → Except TFail JVal) (d c fuel : Nat)
    (f : TFail) (herr : respond c = .error f) (hnt : isTransient f = false) :
    retryGo respond d c fuel = (.error f, []) := by
  cases fuel <;> rw [retryGo] <;> simp [herr, hnt]

/-- C4: the interceptor retries exactly while the attempt count is below
`maxRetries` AND the failure is transient (5xx status or `ECONNABORTED`);
the delay before the n-th retry is `retryDelay * n` (linear backoff); a
non-transient (e.g. 4xx) failure propagates at once with zero delays; and
when the whole budget is spent on transient failures the LAST error
propagates after exactly `maxRetries` delays. -/
theorem claim_C4_retry (respond : Nat → Except TFail JVal)
    (cfg : HarperDBConfig) :
    (∀ (R : Nat) (v : JVal) (f : Nat → TFail), R ≤ cfg.maxRetries →
      (∀ i, i < R → respond i = .error (f i) ∧ isTransient (f i) = true) →
      respond R = .ok v →
      sendWithRetry respond cfg =
        (.ok v, (List.range R).map (fun i => cfg.retryDelay * (i + 1)))) ∧
    (∀ f, respond 0 = .error f → isTransient f = false →
      sendWithRetry respond cfg = (.error f, [])) ∧
    (∀ (f : Nat → TFail),
      (∀ i, i ≤ cfg.maxRetries → respond i = .error (f i)) →
      (∀ i, i < cfg.maxRetries → isTransient (f i) = true) →
      sendWithRetry respond cfg =
        (.error (f cfg.maxRetries),
          (List.range cfg.maxRetries).map (fun i => cfg.retryDelay * (i + 1)))) := by
  refine ⟨?_, ?_, ?_⟩
  · intro R v f hle hfail hok
    have h := retryGo_ok respond cfg.retryDelay R 0 cfg.maxRetries v f hle
      (fun i hi => by simpa using hfail i hi) (by simpa using hok)
    simpa [sendWithRetry] using h
  · intro f herr hnt
    exact retryGo_stop respond cfg.retryDelay 0 cfg.maxRetries f herr hnt
  · intro f herr htr
    have h := retryGo_exhaust respond cfg.retryDelay cfg.maxRetries 0 f
      (fun i hi => by simpa using herr i hi) htr
    simpa [sendWithRetry] using h

/-- C4 witness: a transport failing twice with 503 then succeeding, with
`maxRetries = 3` and base delay 10, succeeds overall after the two linear
delays 10 and 20; and a 400 response fails at once with no delay. -/
theorem claim_C4_retry_witness :
    sendWithRetry
      (fun n => if n < 2 then .error { status := some 503 } else .ok (.jnum 42))
      { maxRetries := 3, retryDelay := 10 } =
      (.ok (.jnum 42), [10, 20]) ∧
    sendWithRetry (fun _ => .error { status := some 400 })
      { maxRetries := 3, retryDelay := 10 } =
      (.error { status := some 400 }, []) := by
  constructor
  · have h := (claim_C4_retry
        (fun n => if n < 2 then .error { status := some 503 } else .ok (.jnum 42))
        { maxRetries := 3, retryDelay := 10 }).1 2 (.jnum 42)
        (fun _ => { status := some 503 }) (by decide)
        (fun i hi => ⟨by interval_cases i <;> rfl, rfl⟩) rfl
    exact h.trans (by rfl)
  · exact (claim_C4_retry (fun _ => .error { status := some 400 })
      { maxRetries := 3, retryDelay := 10 }).2.1 { status := some 400 } rfl rfl

/-- An effective batch size / concurrency (`x || 1000`, `x || poolSize ||
10`) is positive. -/
theorem jsOrNat_pos (a : Option Nat) (b : Nat) (hb : 1 ≤ b) :
    1 ≤ jsOrNat a b := by
  cases a with
  | none => simpa [jsOrNat] using hb
  | some n =>
    by_cases h : n = 0 <;> simp [jsOrNat, h] <;> omega

/-- Splitting a chunked list back together gives the original records. -/
theorem chunkList_join {α : Type} (n : Nat) (hn : 1 ≤ n) :
    ∀ (xs : List α), (chunkList xs n).flatten = xs
  | [] => by simp [chunkList]
  | x :: rest => by
    rw [chunkList]
    rw [if_neg (by omega)]
    rw [List.flatten_cons]
    rw [chunkList_join n hn (rest.drop (n - 1))]
    cases n with
    | zero => omega
    | succ m =>
      simp only [List.take_succ_cons, Nat.add_sub_cancel, List.cons_append,
        List.cons.injEq, true_and]
      exact List.take_append_drop m rest
termination_by xs => xs.length
decreasing_by
  simp only [List.length_cons, List.length_drop]
  omega

/-- The `g`-th chunk holds exactly the records at original positions
`g * n .. g * n + n - 1`. -/
theorem chunkList_getD {α : Type} (n : Nat) (hn : 1 ≤ n) :
    ∀ (xs : List α) (g : Nat), g < (chunkList xs n).length →
      (chunkList xs n).getD g [] = (xs.drop (g * n)).take n
  | [], g => by simp [chunkList]
  | x :: rest, g => by
    intro hg
    rw [chunkList, if_neg (by omega)]
    cases g with
    | zero => simp
    | succ g =>
      rw [chunkList, if_neg (by omega)] at hg
      simp only [List.length_cons, Nat.succ_lt_succ_iff] at hg
      simp only [List.getD_cons_succ]
      rw [chunkList_getD n hn (rest.drop (n - 1)) g hg]
      rw [List.drop_drop]
      rw [show g + 1 = Nat.succ g from rfl, Nat.succ_mul]
      rw [show g * n + n = (g * n + (n - 1)) + 1 by omega]
      rw [List.drop_succ_cons]
      rw [Nat.add_comm (g * n) (n - 1)]
termination_by xs g => xs.length
decreasing_by
  simp only [List.length_cons, List.length_drop]
  omega

/-- Successes and failures over a group list add up to all its records. -/
theorem expSucc_add_expFail {α : Type} (send : Nat → Option String) :
    ∀ (batches : List (List α)) (g : Nat),
      expSucc send batches g + expFail send batches g = batches.flatten.length := by
  intro batches
  induction batches with
  | nil => intro g; simp [expSucc, expFail]
  | cons b rest ih =>
    intro g
    simp only [expSucc, expFail, List.flatten_cons, List.length_append]
    have h := ih (g + 1)
    cases hs : send g with
    | none =>
      rw [if_pos rfl, if_pos rfl]
      omega
    | some msg =>
      rw [if_neg (by simp), if_neg (by simp)]
      omega

/-- `expSucc` splits over an append of group lists. -/
theorem expSucc_append {α : Type} (send : Nat → Option String) :
    ∀ (w rest : List (List α)) (g : Nat),
      expSucc send (w ++ rest) g = expSucc send w g + expSucc send rest (g + w.length) := by
  intro w
  induction w with
  | nil => intro rest g; simp [expSucc]
  | cons b t ih =>
    intro rest g
    simp only [List.cons_append, expSucc, List.length_cons, List.append_eq]
    rw [ih rest (g + 1)]
    rw [show g + 1 + t.length = g + (t.length + 1) by omega]
    omega

/-- `expFail` splits over an append of group lists. -/
theorem expFail_append {α : Type} (send : Nat → Option String) :
    ∀ (w rest : List (List α)) (g : Nat),
      expFail send (w ++ rest) g = expFail send w g + expFail send rest (g + w.length) := by
  intro w
  induction w with
  | nil => intro rest g; simp [expFail]
  | cons b t ih =>
    intro rest g
    simp only [List.cons_append, expFail, List.length_cons, List.append_eq]
    rw [ih rest (g + 1)]
    rw [show g + 1 + t.length = g + (t.length + 1) by omega]
    omega

/-- `expErrs` splits over an append of group lists. -/
theorem expErrs_append {α : Type} (send : Nat → Option String) (batchSize : Nat) :
    ∀ (w rest : List (List α)) (g : Nat),
      expErrs send batchSize (w ++ rest) g =
        expErrs send batchSize w g ++ expErrs send batchSize rest (g + w.length) := by
  intro w
  induction w with
  | nil => intro rest g; simp [expErrs]
  | cons b t ih =>
    intro rest g
    simp only [List.cons_append, expErrs, List.length_cons, List.append_eq]
    rw [ih rest (g + 1)]
    rw [show g + 1 + t.length = g + (t.length + 1) by omega]
    rw [List.append_assoc]

/-- Unfolding of the sequential bulk loop: it adds the expected success and
failure totals, error entries and event trace to the accumulator. -/
theorem seqBulkGo_spec {α : Type} (table schemaName : String)
    (send : Nat → Option String) (batchSize numBatches : Nat) :
    ∀ (batches : List (List α)) (g : Nat) (acc : BulkAcc),
      seqBulkGo table schemaName send batchSize numBatches batches g acc =
        { successful := acc.successful + expSucc send batches g,
          failed := acc.failed + expFail send batches g,
          errors := acc.errors ++ expErrs send batchSize batches g,
          events := acc.events ++
            expEvtsSeq table schemaName send numBatches batches g } := by
  intro batches
  induction batches with
  | nil =>
    intro g acc
    simp [seqBulkGo, expSucc, expFail, expErrs, expEvtsSeq]
  | cons b rest ih =>
    intro g acc
    rw [seqBulkGo]
    cases hs : send g with
    | none =>
      rw [ih]
      simp only [expSucc, expFail, expErrs, expEvtsSeq, hs]
      simp [List.append_assoc, Nat.add_assoc]
    | some msg =>
      rw [ih]
      simp only [expSucc, expFail, expErrs, expEvtsSeq, hs]
      simp [List.append_assoc, Nat.add_assoc]

/-- `range'` splits at any point. -/
theorem range'_split (s m n : Nat) :
    List.range' s (m + n) = List.range' s m ++ List.range' (s + m) n := by
  have h := List.range'_append s m n 1
  simp only [Nat.one_mul] at h
  rw [Nat.add_comm m n]
  exact h.symm

/-- Unfolding of one wave of the parallel bulk loop. -/
theorem parWave_spec {α : Type} (batchSize : Nat) (send : Nat → Option String) :
    ∀ (wave : List (List α)) (waveStart j : Nat) (acc : BulkAcc),
      parWave batchSize send waveStart wave j acc =
        { successful := acc.successful + expSucc send wave (waveStart + j),
          failed := acc.failed + expFail send wave (waveStart + j),
          errors := acc.errors ++ expErrs send batchSize wave (waveStart + j),
          events := acc.events ++
            (List.range' (waveStart + j) wave.length).map BulkEvent.send } := by
  intro wave
  induction wave with
  | nil =>
    intro waveStart j acc
    simp [parWave, expSucc, expFail, expErrs]
  | cons b rest ih =>
    intro waveStart j acc
    rw [parWave]
    cases hs : send (waveStart + j) with
    | none =>
      rw [ih]
      simp only [expSucc, expFail, expErrs, hs]
      simp [List.append_assoc, Nat.add_assoc]
      rw [List.range'_succ]
      simp [Nat.add_assoc]
    | some msg =>
      rw [ih]
      simp only [expSucc, expFail, expErrs, hs]
      simp [List.append_assoc, Nat.add_assoc]
      rw [List.range'_succ]
      simp [Nat.add_assoc]

/-- Unfolding of the whole wave loop over the flattened group list. -/
theorem parBulkGo_spec {α : Type} (batchSize : Nat) (send : Nat → Option String) :
    ∀ (ws : List (List (List α))) (i : Nat) (acc : BulkAcc),
      parBulkGo batchSize send ws i acc =
        { successful := acc.successful + expSucc send ws.flatten i,
          failed := acc.failed + expFail send ws.flatten i,
          errors := acc.errors ++ expErrs send batchSize ws.flatten i,
          events := acc.events ++
            (List.range' i ws.flatten.length).map BulkEvent.send } := by
  intro ws
  induction ws with
  | nil =>
    intro i acc
    simp [parBulkGo, expSucc, expFail, expErrs]
  | cons w rest ih =>
    intro i acc
    rw [parBulkGo, parWave_spec, ih]
    simp only [Nat.add_zero, List.flatten_cons, expSucc_append, expFail_append,
      expErrs_append, List.length_append]
    rw [show (List.range' i (w.length + rest.flatten.length)).map BulkEvent.send =
        (List.range' i w.length).map BulkEvent.send ++
          (List.range' (i + w.length) rest.flatten.length).map BulkEvent.send from by
      rw [← List.map_append, range'_split]]
    simp [List.append_assoc, Nat.add_assoc]

/-- `invalidateEvents` distributes over traces. -/
theorem invalidateEvents_append :
    ∀ (l1 l2 : List BulkEvent),
      invalidateEvents (l1 ++ l2) = invalidateEvents l1 ++ invalidateEvents l2 := by
  intro l1
  induction l1 with
  | nil => intro l2; simp [invalidateEvents]
  | cons e rest ih =>
    intro l2
    cases e <;> simp [invalidateEvents, ih]

/-- A trace of sends alone contains no invalidation. -/
theorem invalidateEvents_map_send :
    ∀ (l : List Nat), invalidateEvents (l.map BulkEvent.send) = [] := by
  intro l
  induction l with
  | nil => rfl
  | cons g rest ih => simp [invalidateEvents, ih]

/-- The sequential trace contains exactly one invalidation — iff the job
has at least one group AND the send of the LAST group index succeeds. -/
theorem invEvents_expEvtsSeq {α : Type} (t s : String) (send : Nat → Option String)
    (nB : Nat) :
    ∀ (batches : List (List α)) (g : Nat), g + batches.length = nB →
      invalidateEvents (expEvtsSeq t s send nB batches g) =
        if 0 < batches.length ∧ send (nB - 1) = none then [(t, s)] else [] := by
  intro batches
  induction batches with
  | nil =>
    intro g hg
    simp [expEvtsSeq, invalidateEvents]
  | cons b rest ih =>
    intro g hg
    simp only [expEvtsSeq, invalidateEvents, invalidateEvents_append]
    cases hrest : rest with
    | nil =>
      subst hrest
      have hgnB : g = nB - 1 := by
        simp only [List.length_cons, List.length_nil] at hg
        omega
      cases hsg : send g with
      | none =>
        rw [if_pos ⟨hgnB, rfl⟩]
        rw [if_pos ⟨by simp, by rw [← hgnB]; exact hsg⟩]
        simp [invalidateEvents, expEvtsSeq]
      | some msg =>
        rw [if_neg (fun h => by simp at h)]
        rw [if_neg (by rw [← hgnB, hsg]; simp)]
        simp [invalidateEvents, expEvtsSeq]
    | cons b2 rest2 =>
      subst hrest
      have hne : g ≠ nB - 1 := by
        simp only [List.length_cons] at hg
        omega
      rw [if_neg (fun h => hne h.1)]
      simp only [List.nil_append, List.length_cons]
      rw [ih (g + 1) (by simp only [List.length_cons] at hg ⊢; omega)]
      simp only [List.length_cons]
      by_cases hlast : send (nB - 1) = none
      · rw [if_pos ⟨by omega, hlast⟩, if_pos ⟨by omega, hlast⟩]
        simp [invalidateEvents]
      · rw [if_neg (fun h => hlast h.2), if_neg (fun h => hlast h.2)]
        simp [invalidateEvents]

/-- The returned `errors` member (with `undefined` read as the empty list)
is the accumulated error list. -/
theorem finishBulk_errors_getD (acc : BulkAcc) :
    (finishBulk acc).1.errors.getD [] = acc.errors := by
  cases h : acc.errors <;> simp [finishBulk, h]

/-- C2 counterexample: two successful bulk writes with NO invalidation.
`insertManyParallel` of one record whose single group send succeeds
performs no cache invalidation at all; and `insertMany` of two records
with `batchSize = 1` whose FIRST group succeeds but whose last group fails
performs none either — although in both runs at least one group succeeded,
so the claim demands exactly one invalidation. -/
theorem claim_C2_counterexample :
    ((insertManyParallel cfgOff "users" ([1] : List Nat) none none
        (fun _ => none)).1.successful = 1 ∧
      invalidateEvents (insertManyParallel cfgOff "users" ([1] : List Nat) none none
        (fun _ => none)).2 = []) ∧
    ((insertMany cfgOff "users" ([1, 2] : List Nat) (some 1)
        (fun g => if g = 0 then none else some "boom")).1.successful = 1 ∧
      invalidateEvents (insertMany cfgOff "users" ([1, 2] : List Nat) (some 1)
        (fun g => if g = 0 then none else some "boom")).2 = []) := by
  refine ⟨⟨?_, ?_⟩, ⟨?_, ?_⟩⟩ <;>
    simp [insertMany, insertManyParallel, chunkList, jsOrNat, parBulkGo, parWave,
      seqBulkGo, finishBulk, invalidateEvents, cfgOff]

/-- C2 (amended): cache invalidation in the bulk writers is as follows —
`insertMany`, `updateMany` and `deleteMany` invalidate the table's cache
entries exactly once if and only if the job has at least one group and the
send of the LAST group succeeds (so a failing final group suppresses
invalidation even when earlier groups succeeded); `insertManyParallel`
never invalidates; `upsertMany` invalidates exactly once after all waves,
whether or not any group succeeded.  (What an invalidation call removes is
the subject of `claim_C6_invalidate`.) -/
theorem claim_C2_invalidation {α : Type} (cfg : HarperDBConfig) (table : String)
    (records : List α) (hashValues : List String)
    (batchSize? concurrency? : Option Nat) (send : Nat → Option String) :
    (invalidateEvents (insertMany cfg table records batchSize? send).2 =
      if 0 < (chunkList records (jsOrNat batchSize? 1000)).length ∧
          send ((chunkList records (jsOrNat batchSize? 1000)).length - 1) = none
        then [(table, cfg.schema)] else []) ∧
    (invalidateEvents (updateMany cfg table records batchSize? send).2 =
      if 0 < (chunkList records (jsOrNat batchSize? 1000)).length ∧
          send ((chunkList records (jsOrNat batchSize? 1000)).length - 1) = none
        then [(table, cfg.schema)] else []) ∧
    (invalidateEvents (deleteMany cfg table hashValues batchSize? send).2 =
      if 0 < (chunkList hashValues (jsOrNat batchSize? 1000)).length ∧
          send ((chunkList hashValues (jsOrNat batchSize? 1000)).length - 1) = none
        then [(table, cfg.schema)] else []) ∧
    (invalidateEvents
        (insertManyParallel cfg table records batchSize? concurrency? send).2 = []) ∧
    (invalidateEvents (upsertMany cfg table records batchSize? concurrency? send).2 =
      [(table, cfg.schema)]) := by
  refine ⟨?_, ?_, ?_, ?_, ?_⟩
  · simp only [insertMany, finishBulk]
    rw [seqBulkGo_spec]
    simp only [List.nil_append]
    exact invEvents_expEvtsSeq table cfg.schema send _ _ 0 (by simp)
  · simp only [updateMany, insertMany, finishBulk]
    rw [seqBulkGo_spec]
    simp only [List.nil_append]
    exact invEvents_expEvtsSeq table cfg.schema send _ _ 0 (by simp)
  · simp only [deleteMany, finishBulk]
    rw [seqBulkGo_spec]
    simp only [List.nil_append]
    exact invEvents_expEvtsSeq table cfg.schema send _ _ 0 (by simp)
  · simp only [insertManyParallel, finishBulk]
    rw [parBulkGo_spec]
    simp only [List.nil_append]
    exact invalidateEvents_map_send _
  · simp only [upsertMany, finishBulk]
    rw [parBulkGo_spec]
    simp only [List.nil_append]
    rw [invalidateEvents_append, invalidateEvents_map_send]
    simp [invalidateEvents]

/-- C8: the bulk writers always return a result (they are total functions
of the per-group outcomes — per-group failures are caught, never
rethrown): `successful`/`failed` total the records of succeeding and
failing groups, they sum to the input length, the error list holds exactly
the records of each failed group under the group's message with their
ORIGINAL input indices `g * batchSize + j` — and group `g` indeed holds
the input records at positions `g * batchSize ..` (chunking is by
consecutive runs).  The same accounting holds for the wave-parallel
variant. -/
theorem claim_C8_bulk {α : Type} (cfg : HarperDBConfig) (table : String)
    (records : List α) (batchSize? concurrency? : Option Nat)
    (send : Nat → Option String) :
    ((insertMany cfg table records batchSize? send).1.successful =
      expSucc send (chunkList records (jsOrNat batchSize? 1000)) 0) ∧
    ((insertMany cfg table records batchSize? send).1.failed =
      expFail send (chunkList records (jsOrNat batchSize? 1000)) 0) ∧
    ((insertMany cfg table records batchSize? send).1.successful +
        (insertMany cfg table records batchSize? send).1.failed = records.length) ∧
    ((insertMany cfg table records batchSize? send).1.errors.getD [] =
      expErrs send (jsOrNat batchSize? 1000)
        (chunkList records (jsOrNat batchSize? 1000)) 0) ∧
    ((insertManyParallel cfg table records batchSize? concurrency? send).1.successful =
      expSucc send (chunkList records (jsOrNat batchSize? 1000)) 0) ∧
    ((insertManyParallel cfg table records batchSize? concurrency? send).1.failed =
      expFail send (chunkList records (jsOrNat batchSize? 1000)) 0) ∧
    ((insertManyParallel cfg table records batchSize? concurrency? send).1.successful +
        (insertManyParallel cfg table records batchSize? concurrency? send).1.failed =
      records.length) ∧
    ((insertManyParallel cfg table records batchSize? concurrency? send).1.errors.getD [] =
      expErrs send (jsOrNat batchSize? 1000)
        (chunkList records (jsOrNat batchSize? 1000)) 0) ∧
    (∀ g, g < (chunkList records (jsOrNat batchSize? 1000)).length →
      (chunkList records (jsOrNat batchSize? 1000)).getD g [] =
        (records.drop (g * jsOrNat batchSize? 1000)).take (jsOrNat batchSize? 1000)) := by
  have hbs : 1 ≤ jsOrNat batchSize? 1000 := jsOrNat_pos _ _ (by omega)
  have hconc : 1 ≤ jsOrNat concurrency? (jsOrNat (some cfg.poolSize) 10) :=
    jsOrNat_pos _ _ (jsOrNat_pos _ _ (by omega))
  have hflat := chunkList_join (jsOrNat batchSize? 1000) hbs records
  have hflatW := chunkList_join (jsOrNat concurrency? (jsOrNat (some cfg.poolSize) 10))
    hconc (chunkList records (jsOrNat batchSize? 1000))
  refine ⟨?_, ?_, ?_, ?_, ?_, ?_, ?_, ?_, ?_⟩
  · simp only [insertMany, finishBulk]
    rw [seqBulkGo_spec]
    simp
  · simp only [insertMany, finishBulk]
    rw [seqBulkGo_spec]
    simp
  · simp only [insertMany, finishBulk]
    rw [seqBulkGo_spec]
    simp only [Nat.zero_add]
    rw [expSucc_add_expFail, hflat]
  · simp only [insertMany]
    rw [finishBulk_errors_getD, seqBulkGo_spec]
    simp
  · simp only [insertManyParallel, finishBulk]
    rw [parBulkGo_spec, hflatW]
    simp
  · simp only [insertManyParallel, finishBulk]
    rw [parBulkGo_spec, hflatW]
    simp
  · simp only [insertManyParallel, finishBulk]
    rw [parBulkGo_spec, hflatW]
    simp only [Nat.zero_add]
    rw [expSucc_add_expFail, hflat]
  · simp only [insertManyParallel]
    rw [finishBulk_errors_getD, parBulkGo_spec, hflatW]
    simp
  · exact chunkList_getD (jsOrNat batchSize? 1000) hbs records

/-- C8 witness: the positional-chunk clause at 5 records with batch size
2: the second group is exactly the records at original positions 2 and 3. -/
theorem claim_C8_bulk_witness :
    (chunkList ([10, 11, 12, 13, 14] : List Nat) (jsOrNat (some 2) 1000)).getD 1 [] =
      (([10, 11, 12, 13, 14] : List Nat).drop (1 * jsOrNat (some 2) 1000)).take
        (jsOrNat (some 2) 1000) :=
  (claim_C8_bulk cfgOff "users" ([10, 11, 12, 13, 14] : List Nat) (some 2) none
      (fun _ => none)).2.2.2.2.2.2.2.2 1 (by simp [chunkList, jsOrNat])

/-- Inserting a field into a list permutes consing it on. -/
theorem insertByKey_perm {α : Type} (p : String × α) :
    ∀ l : List (String × α), (insertByKey p l).Perm (p :: l) := by
  intro l
  induction l with
  | nil => simp [insertByKey]
  | cons q rest ih =>
    rw [insertByKey]
    by_cases h : p.1 ≤ q.1
    · rw [if_pos h]
    · rw [if_neg h]
      exact (ih.cons q).trans (List.Perm.swap p q rest)

/-- Sorting permutes. -/
theorem sortByKey_perm {α : Type} :
    ∀ l : List (String × α), (sortByKey l).Perm l := by
  intro l
  induction l with
  | nil => simp [sortByKey]
  | cons p rest ih =>
    rw [sortByKey]
    exact (insertByKey_perm p (sortByKey rest)).trans (ih.cons p)

/-- Insertion keeps the key order. -/
theorem insertByKey_pairwise {α : Type} (p : String × α) :
    ∀ l : List (String × α), List.Pairwise (fun a b => a.1 ≤ b.1) l →
      List.Pairwise (fun a b => a.1 ≤ b.1) (insertByKey p l) := by
  intro l
  induction l with
  | nil => intro _; simp [insertByKey]
  | cons q rest ih =>
    intro hp
    rcases List.pairwise_cons.mp hp with ⟨hq, hrest⟩
    rw [insertByKey]
    by_cases h : p.1 ≤ q.1
    · rw [if_pos h]
      refine List.Pairwise.cons ?_ hp
      intro r hr
      simp only [List.mem_cons] at hr
      rcases hr with rfl | hr
      · exact h
      · exact le_trans h (hq r hr)
    · rw [if_neg h]
      have hqp : q.1 ≤ p.1 := le_of_not_le h
      refine List.Pairwise.cons ?_ (ih hrest)
      intro r hr
      have hr' := (insertByKey_perm p rest).mem_iff.mp hr
      simp only [List.mem_cons] at hr'
      rcases hr' with rfl | hr'
      · exact hqp
      · exact hq r hr'

/-- A sorted field list has non-decreasing keys. -/
theorem sortByKey_pairwise {α : Type} :
    ∀ l : List (String × α), List.Pairwise (fun a b => a.1 ≤ b.1) (sortByKey l) := by
  intro l
  induction l with
  | nil => simp [sortByKey]
  | cons p rest ih =>
    rw [sortByKey]
    exact insertByKey_pairwise p _ ih

/-- `keysNodup` is distinctness of the key projections. -/
theorem keysNodup_iff {α : Type} :
    ∀ l : List (String × α), keysNodup l = true ↔ (l.map Prod.fst).Nodup := by
  intro l
  induction l with
  | nil => simp [keysNodup]
  | cons p rest ih =>
    obtain ⟨k, v⟩ := p
    simp only [keysNodup, Bool.and_eq_true, Bool.not_eq_true', List.map_cons,
      List.nodup_cons, ih]
    constructor
    · rintro ⟨h1, h2⟩
      refine ⟨?_, h2⟩
      intro hk
      rw [List.mem_map] at hk
      obtain ⟨q, hq, hqk⟩ := hk
      have hany : rest.any (fun q => q.1 == k) = true :=
        List.any_eq_true.mpr ⟨q, hq, by simp [hqk]⟩
      rw [hany] at h1
      cases h1
    · rintro ⟨h1, h2⟩
      refine ⟨?_, h2⟩
      rw [List.any_eq_false]
      intro q hq
      simp only [beq_iff_eq]
      intro hqk
      exact h1 (List.mem_map.mpr ⟨q, hq, hqk⟩)

/-- A lookup misses exactly the keys not in the list. -/
theorem lookupField_eq_none_iff :
    ∀ (l : List (String × JVal)) (k : String),
      lookupField l k = none ↔ k ∉ l.map Prod.fst := by
  intro l k
  induction l with
  | nil => simp [lookupField]
  | cons p rest ih =>
    obtain ⟨k', v⟩ := p
    by_cases h : k' = k
    · subst h
      simp [lookupField]
    · have h' : k ≠ k' := fun hh => h hh.symm
      simp [lookupField, h, ih, h']

/-- A successful lookup returns a member. -/
theorem lookupField_mem :
    ∀ (l : List (String × JVal)) (k : String) (w : JVal),
      lookupField l k = some w → (k, w) ∈ l := by
  intro l k w
  induction l with
  | nil => simp [lookupField]
  | cons p rest ih =>
    obtain ⟨k', v⟩ := p
    by_cases h : k' = k
    · subst h
      rw [lookupField, if_pos rfl]
      intro hh
      injection hh with hh2
      subst hh2
      exact List.mem_cons_self _ _
    · rw [lookupField, if_neg h]
      intro hl
      simp [ih hl]

/-- With distinct keys, lookup success is exactly membership. -/
theorem lookupField_eq_some_iff (l : List (String × JVal))
    (hnd : (l.map Prod.fst).Nodup) (k : String) (v : JVal) :
    lookupField l k = some v ↔ (k, v) ∈ l := by
  induction l with
  | nil => simp [lookupField]
  | cons p rest ih =>
    obtain ⟨k', v'⟩ := p
    simp only [List.map_cons, List.nodup_cons] at hnd
    by_cases h : k' = k
    · subst h
      rw [lookupField, if_pos rfl]
      constructor
      · intro hh
        injection hh with hh2
        subst hh2
        exact List.mem_cons_self _ _
      · intro hmem
        rcases List.mem_cons.mp hmem with heq | hmem2
        · rw [(Prod.mk.injEq _ _ _ _ ▸ heq : k' = k' ∧ v = v').2]
        · exact absurd (List.mem_map.mpr ⟨(k', v), hmem2, rfl⟩) hnd.1
    · have h' : ¬((k, v) = (k', v')) := fun hh => h (congrArg Prod.fst hh).symm
      rw [lookupField, if_neg h]
      simp [ih hnd.2, h']

/-- Lookups agree across a permutation of a distinct-key list. -/
theorem lookupField_eq_of_perm (l1 l2 : List (String × JVal)) (h : l1.Perm l2)
    (hnd : (l1.map Prod.fst).Nodup) (k : String) :
    lookupField l1 k = lookupField l2 k := by
  have hnd2 : (l2.map Prod.fst).Nodup := ((h.map Prod.fst).nodup_iff).mp hnd
  cases hl : lookupField l1 k with
  | none =>
    symm
    rw [lookupField_eq_none_iff] at hl ⊢
    intro hm
    exact hl ((h.map Prod.fst).mem_iff.mpr hm)
  | some v =>
    symm
    rw [lookupField_eq_some_iff l2 hnd2]
    exact h.subset ((lookupField_eq_some_iff l1 hnd k v).mp hl)

/-- `normFields` is a per-field map. -/
theorem normFields_eq_map :
    ∀ fs : List (String × JVal),
      normFields fs = fs.map (fun p => (p.1, normEntry p.2)) := by
  intro fs
  induction fs with
  | nil => simp [normFields]
  | cons p rest ih =>
    obtain ⟨k, v⟩ := p
    simp [normFields, ih]

/-- Normalization keeps the keys. -/
theorem normFields_keys (fs : List (String × JVal)) :
    (normFields fs).map Prod.fst = fs.map Prod.fst := by
  rw [normFields_eq_map, List.map_map]
  rfl

/-- Normalization commutes with lookup. -/
theorem normFields_lookup :
    ∀ (fs : List (String × JVal)) (k : String),
      lookupField (normFields fs) k = (lookupField fs k).map normEntry := by
  intro fs k
  induction fs with
  | nil => simp [normFields, lookupField]
  | cons p rest ih =>
    obtain ⟨k', v⟩ := p
    by_cases h : k' = k <;> simp [normFields, lookupField, h, ih]

/-- Two distinct-key lists with identical lookups are permutations. -/
theorem perm_of_lookupField_eq (l1 l2 : List (String × JVal))
    (h1 : (l1.map Prod.fst).Nodup) (h2 : (l2.map Prod.fst).Nodup)
    (hl : ∀ k, lookupField l1 k = lookupField l2 k) : l1.Perm l2 := by
  rw [List.perm_ext_iff_of_nodup (List.Nodup.of_map _ h1) (List.Nodup.of_map _ h2)]
  intro p
  obtain ⟨k, v⟩ := p
  rw [← lookupField_eq_some_iff l1 h1, ← lookupField_eq_some_iff l2 h2, hl]

/-- Non-decreasing distinct keys are strictly increasing. -/
theorem pairwise_lt_of_le_nodup (l : List (String × JVal))
    (hle : List.Pairwise (fun a b => a.1 ≤ b.1) l)
    (hnd : (l.map Prod.fst).Nodup) :
    List.Pairwise (fun a b : String × JVal => a.1 < b.1) l := by
  have hne : List.Pairwise (fun a b : String × JVal => a.1 ≠ b.1) l :=
    List.pairwise_map.mp hnd
  exact (hle.and hne).imp (fun h => lt_of_le_of_ne h.1 h.2)

/-- Sorting by key is invariant under permutation of a distinct-key list:
JS `Object.keys(...).sort()` yields the same order however the fields were
inserted. -/
theorem sortByKey_eq_of_perm (l1 l2 : List (String × JVal)) (h : l1.Perm l2)
    (hnd : (l1.map Prod.fst).Nodup) : sortByKey l1 = sortByKey l2 := by
  haveI : IsAntisymm (String × JVal) (fun a b => a.1 < b.1) :=
    ⟨fun a b h1 h2 => ((lt_asymm h1) h2).elim⟩
  have hperm : (sortByKey l1).Perm (sortByKey l2) :=
    (sortByKey_perm l1).trans (h.trans (sortByKey_perm l2).symm)
  have hnd1 : ((sortByKey l1).map Prod.fst).Nodup :=
    (((sortByKey_perm l1).map Prod.fst).nodup_iff).mpr hnd
  have hnd2 : ((sortByKey l2).map Prod.fst).Nodup :=
    (((sortByKey_perm l2).map Prod.fst).nodup_iff).mpr
      (((h.map Prod.fst).nodup_iff).mp hnd)
  exact List.eq_of_perm_of_sorted hperm
    (pairwise_lt_of_le_nodup _ (sortByKey_pairwise l1) hnd1)
    (pairwise_lt_of_le_nodup _ (sortByKey_pairwise l2) hnd2)

/-- Each field of the left list finds a related partner by key lookup in
the right list. -/
theorem keyPermFields_lookup :
    ∀ (fs gs : List (String × JVal)), keyPermFields fs gs = true →
      ∀ k v, (k, v) ∈ fs →
        ∃ w, lookupField gs k = some w ∧ keyPermB v w = true := by
  intro fs
  induction fs with
  | nil => simp
  | cons p rest ih =>
    obtain ⟨k', v'⟩ := p
    intro gs h k v hmem
    rw [keyPermFields, Bool.and_eq_true] at h
    rcases List.mem_cons.mp hmem with heq | hmem2
    · obtain ⟨hk, hv⟩ : k = k' ∧ v = v' := by
        constructor
        · exact congrArg Prod.fst heq
        · exact congrArg Prod.snd heq
      subst hk
      subst hv
      cases hl : lookupField gs k with
      | none => rw [hl] at h; exact absurd h.1 (by simp)
      | some w =>
        rw [hl] at h
        exact ⟨w, rfl, h.1⟩
    · exact ih gs h.2 k v hmem2

/-- Converse: pointwise partners build `keyPermFields`. -/
theorem keyPermFields_of_forall :
    ∀ (fs gs : List (String × JVal)),
      (∀ k v, (k, v) ∈ fs →
        ∃ w, lookupField gs k = some w ∧ keyPermB v w = true) →
      keyPermFields fs gs = true := by
  intro fs
  induction fs with
  | nil => intro gs _; rw [keyPermFields]
  | cons p rest ih =>
    obtain ⟨k', v'⟩ := p
    intro gs h
    rw [keyPermFields, Bool.and_eq_true]
    obtain ⟨w, hw, hkp⟩ := h k' v' (List.mem_cons_self _ _)
    refine ⟨?_, ih gs (fun k v hm => h k v (List.mem_cons_of_mem _ hm))⟩
    rw [hw]
    exact hkp

/-- The key set of the left list reaches into the right one. -/
theorem keyPermFields_keys_subset (fs gs : List (String × JVal))
    (h : keyPermFields fs gs = true) :
    fs.map Prod.fst ⊆ gs.map Prod.fst := by
  intro k hk
  rw [List.mem_map] at hk
  obtain ⟨⟨k0, v0⟩, hmem, hk0⟩ := hk
  subst hk0
  obtain ⟨w, hw, _⟩ := keyPermFields_lookup fs gs h k0 v0 hmem
  exact List.mem_map.mpr ⟨(k0, w), lookupField_mem gs k0 w hw, rfl⟩

/-- With equal lengths and distinct keys on both sides, related field lists
have permuted key lists. -/
theorem keyPermFields_keys_perm (fs gs : List (String × JVal))
    (h : keyPermFields fs gs = true) (hlen : fs.length = gs.length)
    (hnd1 : (fs.map Prod.fst).Nodup) :
    (fs.map Prod.fst).Perm (gs.map Prod.fst) := by
  have hsub := keyPermFields_keys_subset fs gs h
  have hsp : List.Subperm (fs.map Prod.fst) (gs.map Prod.fst) := hnd1.subperm hsub
  apply hsp.perm_of_length_le
  simp [hlen]

/-- C5, forward direction: bodies related by `keyPermB` — equal up to
reordering of object fields outside arrays — canonicalize identically. -/
theorem normEntry_eq_of_keyPermB (a : JVal) :
    ∀ b, keyPermB a b = true → normEntry a = normEntry b := by
  induction a using jval_induction with
  | hnull =>
    intro b h
    have hab : JVal.jnull = b := by
      cases b <;> simpa [keyPermB] using h
    rw [← hab]
  | hbool b1 =>
    intro b h
    have hab : JVal.jbool b1 = b := by
      cases b <;> simpa [keyPermB] using h
    rw [← hab]
  | hnum n1 =>
    intro b h
    have hab : JVal.jnum n1 = b := by
      cases b <;> simpa [keyPermB] using h
    rw [← hab]
  | hstr s1 =>
    intro b h
    have hab : JVal.jstr s1 = b := by
      cases b <;> simpa [keyPermB] using h
    rw [← hab]
  | harr xs _ =>
    intro b h
    have hab : JVal.jarr xs = b := by
      cases b <;> simpa [keyPermB] using h
    rw [← hab]
  | hobj fs ih =>
    intro b h
    cases b with
    | jobj gs =>
      rw [keyPermB] at h
      simp only [Bool.and_eq_true, beq_iff_eq] at h
      obtain ⟨⟨⟨hlen, hnd1⟩, hnd2⟩, hf⟩ := h
      rw [keysNodup_iff] at hnd1 hnd2
      rw [normEntry, normEntry]
      congr 1
      apply sortByKey_eq_of_perm
      · apply perm_of_lookupField_eq
        · rw [normFields_keys]
          exact hnd1
        · rw [normFields_keys]
          exact hnd2
        · intro k
          rw [normFields_lookup, normFields_lookup]
          cases hk : lookupField fs k with
          | none =>
            have hknot : k ∉ fs.map Prod.fst := (lookupField_eq_none_iff fs k).mp hk
            have hgnone : lookupField gs k = none := by
              rw [lookupField_eq_none_iff]
              intro hmem
              exact hknot
                ((keyPermFields_keys_perm fs gs hf hlen hnd1).mem_iff.mpr hmem)
            rw [hgnone]
          | some v =>
            have hmem : (k, v) ∈ fs := lookupField_mem fs k v hk
            obtain ⟨w, hw, hkp⟩ := keyPermFields_lookup fs gs hf k v hmem
            rw [hw]
            simp only [Option.map_some']
            rw [ih k v hmem w hkp]
      · rw [normFields_keys]
        exact hnd1
    | jnull => simp [keyPermB] at h
    | jbool b2 => simp [keyPermB] at h
    | jnum n2 => simp [keyPermB] at h
    | jstr s2 => simp [keyPermB] at h
    | jarr ys => simp [keyPermB] at h

/-- A field value of a well-formed object is itself well-formed. -/
theorem wfFields_mem :
    ∀ (fs : List (String × JVal)), wfFields fs = true →
      ∀ k v, (k, v) ∈ fs → wfSpine v = true := by
  intro fs
  induction fs with
  | nil => simp
  | cons p rest ih =>
    obtain ⟨k', v'⟩ := p
    intro h k v hmem
    rw [wfFields, Bool.and_eq_true] at h
    rcases List.mem_cons.mp hmem with heq | hmem2
    · have hv : v = v' := congrArg Prod.snd heq
      rw [hv]
      exact h.1
    · exact ih h.2 k v hmem2

/-- C5, reverse direction: on well-formed bodies equal fingerprints force
the `keyPermB` relation — identical up to reordering of object fields
outside arrays. -/
theorem keyPermB_of_normEntry_eq (a : JVal) :
    ∀ b, wfSpine a = true → wfSpine b = true → normEntry a = normEntry b →
      keyPermB a b = true := by
  induction a using jval_induction with
  | hnull =>
    intro b _ _ heq
    cases b <;> simp_all [normEntry, keyPermB]
  | hbool b1 =>
    intro b _ _ heq
    cases b <;> simp_all [normEntry, keyPermB]
  | hnum n1 =>
    intro b _ _ heq
    cases b <;> simp_all [normEntry, keyPermB]
  | hstr s1 =>
    intro b _ _ heq
    cases b <;> simp_all [normEntry, keyPermB]
  | harr xs _ =>
    intro b _ _ heq
    cases b <;> simp_all [normEntry, keyPermB]
  | hobj fs ih =>
    intro b hwa hwb heq
    cases b with
    | jobj gs =>
      rw [wfSpine, Bool.and_eq_true] at hwa hwb
      obtain ⟨hnd1, hwf1⟩ := hwa
      obtain ⟨hnd2, hwf2⟩ := hwb
      rw [normEntry, normEntry] at heq
      have heq2 : sortByKey (normFields fs) = sortByKey (normFields gs) := by
        injection heq
      have h2 := sortByKey_perm (normFields gs)
      rw [← heq2] at h2
      have hperm : (normFields fs).Perm (normFields gs) :=
        (sortByKey_perm (normFields fs)).symm.trans h2
      have hlen : fs.length = gs.length := by
        have hl := hperm.length_eq
        simpa [normFields_eq_map] using hl
      have hndn : ((normFields fs).map Prod.fst).Nodup := by
        rw [normFields_keys]
        exact (keysNodup_iff fs).mp hnd1
      have hlook : ∀ k,
          (lookupField fs k).map normEntry = (lookupField gs k).map normEntry := by
        intro k
        rw [← normFields_lookup, ← normFields_lookup]
        exact lookupField_eq_of_perm _ _ hperm hndn k
      rw [keyPermB]
      simp only [Bool.and_eq_true, beq_iff_eq]
      refine ⟨⟨⟨hlen, hnd1⟩, hnd2⟩, ?_⟩
      apply keyPermFields_of_forall
      intro k v hmem
      have hfk : lookupField fs k = some v :=
        (lookupField_eq_some_iff fs ((keysNodup_iff fs).mp hnd1) k v).mpr hmem
      have hth := hlook k
      rw [hfk] at hth
      cases hgk : lookupField gs k with
      | none =>
        rw [hgk] at hth
        simp at hth
      | some w =>
        rw [hgk] at hth
        simp only [Option.map_some'] at hth
        refine ⟨w, rfl, ?_⟩
        have hwmem : (k, w) ∈ gs := lookupField_mem gs k w hgk
        exact ih k v hmem w (wfFields_mem fs hwf1 k v hmem)
          (wfFields_mem gs hwf2 k w hwmem) (Option.some.inj hth)
    | jnull => simp [normEntry] at heq
    | jbool b2 => simp [normEntry] at heq
    | jnum n2 => simp [normEntry] at heq
    | jstr s2 => simp [normEntry] at heq
    | jarr ys => simp [normEntry] at heq

/-- C5 counterexample: (1) `normalizeBody` copies arrays verbatim, so
reordering the keys of an object nested INSIDE an array — a reordering of
mapping keys at some nesting depth with the array itself left in original
order — changes the fingerprint of a cache-eligible `select`; (2)
fingerprints are not injective on distinct bodies either: a top-level array
`[1]` satisfies `typeof body === 'object'`, `Object.keys` turns it into the
index-keyed object `{"0": 1}`, and both bodies — though different values —
produce the same fingerprint. -/
theorem claim_C5_counterexample :
    generateCacheKey "select"
        (.jobj [("a", .jarr [.jobj [("x", .jnum 1), ("y", .jnum 2)]])]) ≠
      generateCacheKey "select"
        (.jobj [("a", .jarr [.jobj [("y", .jnum 2), ("x", .jnum 1)]])]) ∧
    (JVal.jarr [.jnum 1]) ≠ (JVal.jobj [("0", .jnum 1)]) ∧
    generateCacheKey "select" (.jarr [.jnum 1]) =
      generateCacheKey "select" (.jobj [("0", .jnum 1)]) := by
  refine ⟨?_, by simp, ?_⟩
  · rw [generateCacheKey, generateCacheKey, if_pos (by decide), if_pos (by decide)]
    simp [normalizeBody, normFields, normEntry, sortByKey, insertByKey]
  · rw [generateCacheKey, generateCacheKey, if_pos (by decide), if_pos (by decide)]
    have ht : toString (0 : Nat) = "0" := rfl
    simp [normalizeBody, enumKeyed, normFields, normEntry, sortByKey,
      insertByKey, ht]

/-- C5: for a cache-eligible operation (one on the allow-list after
lower-casing) and top-level object bodies whose every plain object reached
outside arrays has pairwise-distinct keys, the fingerprints of two requests
coincide exactly when the bodies agree up to reordering of object keys
outside arrays (`keyPermB`): reordering keys at any depth not crossing an
array preserves the fingerprint, and any other difference — a differing
value, or a reordering inside an array — changes it; for an operation off
the allow-list the fingerprint is the empty (absent) key for every body. -/
theorem claim_C5_cache_key (op : String) (fs gs : List (String × JVal))
    (body : JVal) :
    (cacheableOperations.contains (lowerAscii op) = true →
      wfSpine (.jobj fs) = true → wfSpine (.jobj gs) = true →
      (generateCacheKey op (.jobj fs) = generateCacheKey op (.jobj gs) ↔
        keyPermB (.jobj fs) (.jobj gs) = true)) ∧
    (cacheableOperations.contains (lowerAscii op) = false →
      generateCacheKey op body = none) := by
  constructor
  · intro helig hwf1 hwf2
    rw [generateCacheKey, generateCacheKey, if_pos helig, if_pos helig]
    constructor
    · intro h
      have h2 : normalizeBody (.jobj fs) = normalizeBody (.jobj gs) := by
        have h1 : CacheKey.enc op (normalizeBody (.jobj fs)) =
            CacheKey.enc op (normalizeBody (.jobj gs)) := Option.some.inj h
        injection h1
      apply keyPermB_of_normEntry_eq _ _ hwf1 hwf2
      rw [normalizeBody, normalizeBody] at h2
      rw [normEntry, normEntry]
      exact h2
    · intro h
      have h2 := normEntry_eq_of_keyPermB _ _ h
      rw [normEntry, normEntry] at h2
      rw [normalizeBody, normalizeBody]
      rw [h2]
  · intro h
    rw [generateCacheKey,
      if_neg (show ¬(cacheableOperations.contains (lowerAscii op) = true) by
        simpa using h)]

/-- Witness: `{b: 1, a: 2}` and `{a: 2, b: 1}` fingerprint identically under
`select`, and the ineligible operation `UPDATE` yields no key. -/
theorem claim_C5_cache_key_witness :
    generateCacheKey "select" (.jobj [("b", .jnum 1), ("a", .jnum 2)]) =
      generateCacheKey "select" (.jobj [("a", .jnum 2), ("b", .jnum 1)]) ∧
    generateCacheKey "UPDATE" (.jnum 0) = none := by
  constructor
  · exact ((claim_C5_cache_key "select" [("b", .jnum 1), ("a", .jnum 2)]
        [("a", .jnum 2), ("b", .jnum 1)] (.jnum 0)).1 (by decide)
        (by simp [wfSpine, wfFields, keysNodup])
        (by simp [wfSpine, wfFields, keysNodup])).mpr
      (by simp [keyPermB, keyPermFields, keysNodup, lookupField, beq_iff_eq])
  · exact (claim_C5_cache_key "UPDATE" [] [] (.jnum 0)).2 (by decide)

end HDB
